import Mathlib

/-!
Verification of the STIX pattern semantic-equivalence engine
(`stix2/equivalence/pattern/__init__.py`) and the data-markings entry point
(`stix2/markings/__init__.py`).

The orchestration functions (`equivalent_patterns`, `find_equivalent_patterns`,
`get_markings`) are translated directly from the repository source.  The
canonicalization transformers, the comparator and the pattern parser are
imported by the source from modules that are not part of this repository
snapshot; those components are modelled from the specification (sections 4.1
to 4.8 of the design document), as noted on each definition.
-/

namespace Stix2

/-- Three-way comparison on any linear order, used as the basic building block
of the comparators (spec section 4.8: natural within-type comparison). -/
def linCmp {α : Type} [LinearOrder α] (a b : α) : Ordering :=
  if a < b then .lt else if a = b then .eq else .gt

theorem linCmp_eq_iff {α : Type} [LinearOrder α] (a b : α) :
    linCmp a b = .eq ↔ a = b := by
  unfold linCmp
  rcases lt_trichotomy a b with h | h | h
  · simp [h, ne_of_lt h]
  · simp [h]
  · simp [not_lt_of_gt h, ne_of_gt h]

theorem linCmp_lt_iff {α : Type} [LinearOrder α] (a b : α) :
    linCmp a b = .lt ↔ a < b := by
  unfold linCmp
  rcases lt_trichotomy a b with h | h | h
  · simp [h]
  · simp [h, lt_irrefl]
  · simp [not_lt_of_gt h, ne_of_gt h]

theorem linCmp_gt_iff {α : Type} [LinearOrder α] (a b : α) :
    linCmp a b = .gt ↔ b < a := by
  unfold linCmp
  rcases lt_trichotomy a b with h | h | h
  · simp [h, not_lt_of_gt h]
  · simp [h, lt_irrefl]
  · simp [not_lt_of_gt h, ne_of_gt h, h]

theorem linCmp_swap {α : Type} [LinearOrder α] (a b : α) :
    linCmp b a = (linCmp a b).swap := by
  rcases lt_trichotomy a b with h | h | h
  · rw [(linCmp_lt_iff a b).2 h, (linCmp_gt_iff b a).2 h]; rfl
  · subst h; rw [(linCmp_eq_iff a a).2 rfl]; rfl
  · rw [(linCmp_gt_iff a b).2 h, (linCmp_lt_iff b a).2 h]; rfl

theorem linCmp_refl {α : Type} [LinearOrder α] (a : α) : linCmp a a = .eq :=
  (linCmp_eq_iff a a).2 rfl

/-- Chaining of orderings: the conjunction (o.then p) is `eq` iff both are. -/
theorem then_eq_eq (o p : Ordering) : o.then p = .eq ↔ o = .eq ∧ p = .eq := by
  cases o <;> simp [Ordering.then]

theorem then_eq_lt (o p : Ordering) :
    o.then p = .lt ↔ o = .lt ∨ (o = .eq ∧ p = .lt) := by
  cases o <;> simp [Ordering.then]

theorem then_eq_gt (o p : Ordering) :
    o.then p = .gt ↔ o = .gt ∨ (o = .eq ∧ p = .gt) := by
  cases o <;> simp [Ordering.then]

theorem then_swap (o p : Ordering) : (o.then p).swap = o.swap.then p.swap := by
  cases o <;> cases p <;> rfl


theorem then_right_eq (o : Ordering) : o.then .eq = o := by
  cases o <;> rfl

theorem eq_then (p : Ordering) : Ordering.eq.then p = p := rfl

theorem lt_then (p : Ordering) : Ordering.lt.then p = .lt := rfl

theorem gt_then (p : Ordering) : Ordering.gt.then p = .gt := rfl

/-- A comparison function that is a lawful strict total order with equality
meaning structural identity. -/
structure IsLawfulCmp {α : Type} (f : α → α → Ordering) : Prop where
  eq_iff : ∀ a b, f a b = .eq ↔ a = b
  lt_trans : ∀ a b c, f a b = .lt → f b c = .lt → f a c = .lt
  swap : ∀ a b, f b a = (f a b).swap

theorem linCmp_lawful {α : Type} [LinearOrder α] :
    IsLawfulCmp (linCmp (α := α)) where
  eq_iff := linCmp_eq_iff
  lt_trans := by
    intro a b c h1 h2
    rw [linCmp_lt_iff] at h1 h2 ⊢
    exact h1.trans h2
  swap := linCmp_swap

theorem IsLawfulCmp.congr {α : Type} {f g : α → α → Ordering}
    (h : ∀ a b, f a b = g a b) (hg : IsLawfulCmp g) : IsLawfulCmp f where
  eq_iff a b := by rw [h]; exact hg.eq_iff a b
  lt_trans a b c h1 h2 := by
    rw [h] at h1 h2 ⊢; exact hg.lt_trans a b c h1 h2
  swap a b := by rw [h, h]; exact hg.swap a b

theorem IsLawfulCmp.onKey {α β : Type} {f : β → β → Ordering}
    (hf : IsLawfulCmp f) (k : α → β) (hk : ∀ a b, k a = k b → a = b) :
    IsLawfulCmp (fun a b => f (k a) (k b)) where
  eq_iff a b := by
    constructor
    · intro h; exact hk a b ((hf.eq_iff _ _).1 h)
    · intro h; subst h; exact (hf.eq_iff _ _).2 rfl
  lt_trans a b c h1 h2 := hf.lt_trans _ _ _ h1 h2
  swap a b := hf.swap _ _

/-- Lexicographic combination of two comparison functions on a product. -/
def prodCmp {α β : Type} (f : α → α → Ordering) (g : β → β → Ordering) :
    α × β → α × β → Ordering :=
  fun x y => (f x.1 y.1).then (g x.2 y.2)

theorem prodCmp_lawful {α β : Type} {f : α → α → Ordering}
    {g : β → β → Ordering} (hf : IsLawfulCmp f) (hg : IsLawfulCmp g) :
    IsLawfulCmp (prodCmp f g) where
  eq_iff a b := by
    obtain ⟨a1, a2⟩ := a
    obtain ⟨b1, b2⟩ := b
    simp [prodCmp, then_eq_eq, hf.eq_iff, hg.eq_iff]
  lt_trans a b c h1 h2 := by
    obtain ⟨a1, a2⟩ := a
    obtain ⟨b1, b2⟩ := b
    obtain ⟨c1, c2⟩ := c
    simp only [prodCmp, then_eq_lt, hf.eq_iff] at h1 h2 ⊢
    rcases h1 with h1 | ⟨rfl, h1g⟩
    · rcases h2 with h2 | ⟨rfl, h2g⟩
      · exact Or.inl (hf.lt_trans _ _ _ h1 h2)
      · exact Or.inl h1
    · rcases h2 with h2 | ⟨rfl, h2g⟩
      · exact Or.inl h2
      · exact Or.inr ⟨rfl, hg.lt_trans _ _ _ h1g h2g⟩
  swap a b := by
    obtain ⟨a1, a2⟩ := a
    obtain ⟨b1, b2⟩ := b
    show (f b1 a1).then (g b2 a2) = ((f a1 b1).then (g a2 b2)).swap
    rw [then_swap, hf.swap a1 b1, hg.swap a2 b2]

/-- Generic lexicographic list comparison, used to reason uniformly about the
per-type list comparators. -/
def listLex {α : Type} (f : α → α → Ordering) : List α → List α → Ordering
  | [], [] => .eq
  | [], _ :: _ => .lt
  | _ :: _, [] => .gt
  | a :: as, b :: bs => (f a b).then (listLex f as bs)

theorem listLex_eq_iff {α : Type} (f : α → α → Ordering) :
    ∀ as : List α, (∀ a ∈ as, ∀ b, f a b = .eq ↔ a = b) →
      ∀ bs, listLex f as bs = .eq ↔ as = bs
  | [], _, [] => by simp [listLex]
  | [], _, _ :: _ => by simp [listLex]
  | _ :: _, _, [] => by simp [listLex]
  | a :: as, IH, b :: bs => by
    have h1 := IH a (by simp) b
    have h2 := listLex_eq_iff f as (fun x hx => IH x (by simp [hx])) bs
    simp [listLex, then_eq_eq, h1, h2]

theorem listLex_swap {α : Type} (f : α → α → Ordering) :
    ∀ as : List α, (∀ a ∈ as, ∀ b, f b a = (f a b).swap) →
      ∀ bs, listLex f bs as = (listLex f as bs).swap
  | [], _, [] => rfl
  | [], _, _ :: _ => rfl
  | _ :: _, _, [] => rfl
  | a :: as, IH, b :: bs => by
    show (f b a).then (listLex f bs as) =
      ((f a b).then (listLex f as bs)).swap
    rw [then_swap, IH a (by simp) b,
      listLex_swap f as (fun x hx => IH x (by simp [hx])) bs]

theorem listLex_lt_trans {α : Type} (f : α → α → Ordering)
    (heq : ∀ a b, f a b = .eq ↔ a = b) :
    ∀ as : List α,
      (∀ a ∈ as, ∀ b c, f a b = .lt → f b c = .lt → f a c = .lt) →
      ∀ bs cs, listLex f as bs = .lt → listLex f bs cs = .lt →
        listLex f as cs = .lt
  | [], _, [], _, h1, _ => by simp [listLex] at h1
  | [], _, _ :: _, [], _, h2 => by simp [listLex] at h2
  | [], _, _ :: _, _ :: _, _, _ => by simp [listLex]
  | _ :: _, _, [], _, h1, _ => by simp [listLex] at h1
  | _ :: _, _, _ :: _, [], _, h2 => by simp [listLex] at h2
  | a :: as, IH, b :: bs, c :: cs, h1, h2 => by
    simp only [listLex, then_eq_lt, heq] at h1 h2 ⊢
    rcases h1 with h1 | ⟨rfl, h1l⟩
    · rcases h2 with h2 | ⟨rfl, h2l⟩
      · exact Or.inl (IH a (by simp) b c h1 h2)
      · exact Or.inl h1
    · rcases h2 with h2 | ⟨rfl, h2l⟩
      · exact Or.inl h2
      · exact Or.inr ⟨rfl,
          listLex_lt_trans f heq as (fun x hx => IH x (by simp [hx])) bs cs
            h1l h2l⟩

/-- Character comparison by code point.  Defined on `Nat` codes so that it
evaluates by kernel reduction. -/
def charCmp (a b : Char) : Ordering := linCmp a.toNat b.toNat

theorem char_toNat_inj (a b : Char) (h : a.toNat = b.toNat) : a = b :=
  Char.eq_of_val_eq (UInt32.ext h)

theorem charCmp_lawful : IsLawfulCmp charCmp :=
  (linCmp_lawful.onKey Char.toNat char_toNat_inj).congr (fun _ _ => rfl)

/-- String comparison, lexicographic over the character sequence (the
natural string order of spec section 4.8, stated on the underlying
character list so that it evaluates by kernel reduction). -/
def strCmp (a b : String) : Ordering := listLex charCmp a.data b.data

theorem strCmp_lawful : IsLawfulCmp strCmp where
  eq_iff a b := by
    have h := listLex_eq_iff charCmp a.data
      (fun x _ y => charCmp_lawful.eq_iff x y) b.data
    unfold strCmp
    rw [h]
    exact ⟨String.ext, fun h2 => congrArg String.data h2⟩
  lt_trans a b c h1 h2 :=
    listLex_lt_trans charCmp charCmp_lawful.eq_iff a.data
      (fun x _ y z => charCmp_lawful.lt_trans x y z) b.data c.data h1 h2
  swap a b :=
    listLex_swap charCmp a.data (fun x _ y => charCmp_lawful.swap x y) b.data

/-- Rank encoding of booleans (false before true). -/
def boolRank (b : Bool) : Int := if b then 1 else 0

/-- Boolean comparison (false sorts before true), via the rank encoding so
that it evaluates by kernel reduction. -/
def boolCmp (a b : Bool) : Ordering := linCmp (boolRank a) (boolRank b)

theorem boolRank_inj (a b : Bool) (h : boolRank a = boolRank b) : a = b := by
  cases a <;> cases b <;> first | rfl | simp [boolRank] at h

theorem boolCmp_lawful : IsLawfulCmp boolCmp :=
  (linCmp_lawful.onKey boolRank boolRank_inj).congr (fun _ _ => rfl)

/-! ## Pattern abstract syntax

Modelled from the spec, section 3 (DATA MODEL): comparison expressions are
property tests (object path, operator, typed literal value, negation flag) or
AND/OR compounds; observation expressions are leaves wrapping one comparison
expression plus a qualifier set, or AND/OR compounds.  The unordered qualifier
set is represented as its canonical sorted-by-kind sequence (spec section 4.8
rule 3 compares qualifier sets as sorted-by-kind sequences). -/

inductive BoolOp : Type
  | and
  | or
  deriving DecidableEq

/-- Modelled from the spec: comparison operators (spec section 3, PropertyTest
"a comparison operator (e.g. equality, greater-than, in, like, matches)"). -/
inductive CompOp : Type
  | eq
  | ne
  | lt
  | le
  | gt
  | ge
  | isIn
  | like
  | matches
  deriving DecidableEq

/-- Modelled from the spec: typed literal values (representative types). -/
inductive CompValue : Type
  | str (s : String)
  | num (n : Int)
  | boolean (b : Bool)
  deriving DecidableEq

/-- Modelled from the spec: comparison-expression trees (spec section 3). -/
inductive ComparisonExpression : Type
  | test (path : String) (op : CompOp) (value : CompValue) (negated : Bool)
  | comp (op : BoolOp) (children : List ComparisonExpression)

/-- Modelled from the spec: temporal qualifiers (spec section 3). -/
inductive Qualifier : Type
  | within (seconds : Int)
  | repeats (count : Int)
  | startStop (start stop : Int)
  deriving DecidableEq

/-- Modelled from the spec: observation-expression trees (spec section 3). -/
inductive ObservationExpression : Type
  | obs (comparison : ComparisonExpression) (qualifiers : List Qualifier)
  | compound (op : BoolOp) (children : List ObservationExpression)

abbrev CompE := ComparisonExpression
abbrev Obs := ObservationExpression

/-! ## Comparator (spec section 4.8)

Modelled from the spec: a strict total order over trees.  Rule 1: leaf sorts
before compound.  Rule 2: compounds compare operator (`AND` before `OR`) then
child sequences lexicographically.  Rule 3: leaves compare qualifier sequences,
then the inner comparison expression by path, operator, value (type rank then
natural within-type order), then negation flag. -/

def boolOpRank : BoolOp → Int
  | .and => 0
  | .or => 1

def boolOpCmp (a b : BoolOp) : Ordering := linCmp (boolOpRank a) (boolOpRank b)

def compOpRank : CompOp → Int
  | .eq => 0
  | .ne => 1
  | .lt => 2
  | .le => 3
  | .gt => 4
  | .ge => 5
  | .isIn => 6
  | .like => 7
  | .matches => 8

def compOpCmp (a b : CompOp) : Ordering := linCmp (compOpRank a) (compOpRank b)

def valueTypeRank : CompValue → Int
  | .str _ => 0
  | .num _ => 1
  | .boolean _ => 2

/-- Modelled from the spec: typed value comparison, same-type values compared
naturally, cross-type values ordered by a fixed type rank. -/
def valueCmp : CompValue → CompValue → Ordering
  | .str a, .str b => strCmp a b
  | .num a, .num b => linCmp a b
  | .boolean a, .boolean b => boolCmp a b
  | a, b => linCmp (valueTypeRank a) (valueTypeRank b)

def qualRank : Qualifier → Int
  | .within _ => 0
  | .repeats _ => 1
  | .startStop _ _ => 2

/-- Modelled from the spec: qualifiers compare by kind then parameters. -/
def qualCmp : Qualifier → Qualifier → Ordering
  | .within a, .within b => linCmp a b
  | .repeats a, .repeats b => linCmp a b
  | .startStop a1 a2, .startStop b1 b2 => (linCmp a1 b1).then (linCmp a2 b2)
  | a, b => linCmp (qualRank a) (qualRank b)

def qualListCmp : List Qualifier → List Qualifier → Ordering
  | [], [] => .eq
  | [], _ :: _ => .lt
  | _ :: _, [] => .gt
  | a :: as, b :: bs => (qualCmp a b).then (qualListCmp as bs)

mutual

/-- Modelled from the spec: comparator over comparison expressions (section
4.8, leaf ordering extended to comparison trees). -/
def comparison_expression_cmp : CompE → CompE → Ordering
  | .test p1 o1 v1 n1, .test p2 o2 v2 n2 =>
    (strCmp p1 p2).then ((compOpCmp o1 o2).then
      ((valueCmp v1 v2).then (boolCmp n1 n2)))
  | .test _ _ _ _, .comp _ _ => .lt
  | .comp _ _, .test _ _ _ _ => .gt
  | .comp o1 cs1, .comp o2 cs2 =>
    (boolOpCmp o1 o2).then (comparisonListCmp cs1 cs2)

def comparisonListCmp : List CompE → List CompE → Ordering
  | [], [] => .eq
  | [], _ :: _ => .lt
  | _ :: _, [] => .gt
  | a :: as, b :: bs =>
    (comparison_expression_cmp a b).then (comparisonListCmp as bs)

end

mutual

/-- Modelled from the spec: comparator over observation expressions (spec
section 4.8).  Equivalence of two canonical patterns is exactly this
comparator returning the equal result. -/
def observation_expression_cmp : Obs → Obs → Ordering
  | .obs c1 q1, .obs c2 q2 =>
    (qualListCmp q1 q2).then (comparison_expression_cmp c1 c2)
  | .obs _ _, .compound _ _ => .lt
  | .compound _ _, .obs _ _ => .gt
  | .compound o1 cs1, .compound o2 cs2 =>
    (boolOpCmp o1 o2).then (observationListCmp cs1 cs2)

def observationListCmp : List Obs → List Obs → Ordering
  | [], [] => .eq
  | [], _ :: _ => .lt
  | _ :: _, [] => .gt
  | a :: as, b :: bs =>
    (observation_expression_cmp a b).then (observationListCmp as bs)

end

theorem boolOpRank_inj (a b : BoolOp) (h : boolOpRank a = boolOpRank b) :
    a = b := by
  cases a <;> cases b <;> first | rfl | simp [boolOpRank] at h

theorem compOpRank_inj (a b : CompOp) (h : compOpRank a = compOpRank b) :
    a = b := by
  cases a <;> cases b <;> first | rfl | simp [compOpRank] at h

theorem boolOpCmp_lawful : IsLawfulCmp boolOpCmp :=
  (linCmp_lawful.onKey boolOpRank boolOpRank_inj).congr (fun _ _ => rfl)

theorem compOpCmp_lawful : IsLawfulCmp compOpCmp :=
  (linCmp_lawful.onKey compOpRank compOpRank_inj).congr (fun _ _ => rfl)

/-- Key embedding used to prove the value comparator lawful. -/
def valStr : CompValue → String
  | .str s => s
  | _ => ""

def valInt : CompValue → Int
  | .num n => n
  | .boolean b => boolRank b
  | _ => 0

def valKey (v : CompValue) : Int × String × Int :=
  (valueTypeRank v, valStr v, valInt v)

def valKeyCmp : Int × String × Int → Int × String × Int → Ordering :=
  prodCmp linCmp (prodCmp strCmp linCmp)

theorem linCmp_int_lt {a b : Int} (h : a < b) : linCmp a b = .lt :=
  (linCmp_lt_iff a b).2 h

theorem linCmp_int_gt {a b : Int} (h : b < a) : linCmp a b = .gt :=
  (linCmp_gt_iff a b).2 h

theorem strCmp_refl (a : String) : strCmp a a = .eq :=
  (strCmp_lawful.eq_iff a a).2 rfl

theorem valueCmp_eq_keyed (a b : CompValue) :
    valueCmp a b = valKeyCmp (valKey a) (valKey b) := by
  cases a <;> cases b <;>
    simp only [valueCmp, valKey, valKeyCmp, prodCmp, valueTypeRank, valStr,
      valInt, boolCmp, linCmp_refl, strCmp_refl, eq_then, then_right_eq] <;>
    first
    | rfl
    | (rw [linCmp_int_lt (by norm_num), lt_then])
    | (rw [linCmp_int_gt (by norm_num), gt_then])
    | (rename_i x y; cases x <;> cases y <;> decide)

theorem valKey_inj (a b : CompValue) (h : valKey a = valKey b) : a = b := by
  cases a <;> cases b <;>
    simp_all [valKey, valueTypeRank, valStr, valInt, boolRank] <;>
    rename_i x y <;> cases x <;> cases y <;> simp_all

theorem valueCmp_lawful : IsLawfulCmp valueCmp :=
  IsLawfulCmp.congr valueCmp_eq_keyed
    ((prodCmp_lawful linCmp_lawful
      (prodCmp_lawful strCmp_lawful linCmp_lawful)).onKey valKey valKey_inj)

/-- Key embedding used to prove the qualifier comparator lawful. -/
def qualKey : Qualifier → Int × Int × Int
  | .within s => (0, s, 0)
  | .repeats c => (1, c, 0)
  | .startStop a b => (2, a, b)

def qualKeyCmp : Int × Int × Int → Int × Int × Int → Ordering :=
  prodCmp linCmp (prodCmp linCmp linCmp)

theorem qualCmp_eq_keyed (a b : Qualifier) :
    qualCmp a b = qualKeyCmp (qualKey a) (qualKey b) := by
  cases a <;> cases b <;>
    simp only [qualCmp, qualKey, qualKeyCmp, prodCmp, qualRank, linCmp_refl,
      eq_then, then_right_eq] <;>
    first
    | rfl
    | (rw [linCmp_int_lt (by norm_num), lt_then])
    | (rw [linCmp_int_gt (by norm_num), gt_then])

theorem qualKey_inj (a b : Qualifier) (h : qualKey a = qualKey b) : a = b := by
  cases a <;> cases b <;> simp_all [qualKey]

theorem qualCmp_lawful : IsLawfulCmp qualCmp :=
  IsLawfulCmp.congr qualCmp_eq_keyed
    ((prodCmp_lawful linCmp_lawful
      (prodCmp_lawful linCmp_lawful linCmp_lawful)).onKey qualKey qualKey_inj)

theorem qualListCmp_eq_listLex :
    ∀ as bs, qualListCmp as bs = listLex qualCmp as bs
  | [], [] => rfl
  | [], _ :: _ => rfl
  | _ :: _, [] => rfl
  | a :: as, b :: bs => by
    show (qualCmp a b).then (qualListCmp as bs) = _
    rw [qualListCmp_eq_listLex as bs]; rfl

theorem comparisonListCmp_eq_listLex :
    ∀ as bs, comparisonListCmp as bs = listLex comparison_expression_cmp as bs
  | [], [] => rfl
  | [], _ :: _ => rfl
  | _ :: _, [] => rfl
  | a :: as, b :: bs => by
    show (comparison_expression_cmp a b).then (comparisonListCmp as bs) = _
    rw [comparisonListCmp_eq_listLex as bs]; rfl

theorem observationListCmp_eq_listLex :
    ∀ as bs, observationListCmp as bs = listLex observation_expression_cmp as bs
  | [], [] => rfl
  | [], _ :: _ => rfl
  | _ :: _, [] => rfl
  | a :: as, b :: bs => by
    show (observation_expression_cmp a b).then (observationListCmp as bs) = _
    rw [observationListCmp_eq_listLex as bs]; rfl

/-- The packaged property-test comparator (path, then operator, then value,
then negation), as a lawful product comparator. -/
def testCmpP : String × CompOp × CompValue × Bool →
    String × CompOp × CompValue × Bool → Ordering :=
  prodCmp strCmp (prodCmp compOpCmp (prodCmp valueCmp boolCmp))

theorem testCmpP_lawful : IsLawfulCmp testCmpP :=
  prodCmp_lawful strCmp_lawful
    (prodCmp_lawful compOpCmp_lawful
      (prodCmp_lawful valueCmp_lawful boolCmp_lawful))

theorem comparison_expression_cmp_eq_iff :
    ∀ a b : CompE, comparison_expression_cmp a b = .eq ↔ a = b
  | .test p1 o1 v1 n1, .test p2 o2 v2 n2 => by
    have h := testCmpP_lawful.eq_iff (p1, o1, v1, n1) (p2, o2, v2, n2)
    simp only [testCmpP, prodCmp, Prod.mk.injEq] at h
    simp only [comparison_expression_cmp, ComparisonExpression.test.injEq]
    exact h
  | .test _ _ _ _, .comp _ _ => by simp [comparison_expression_cmp]
  | .comp _ _, .test _ _ _ _ => by simp [comparison_expression_cmp]
  | .comp o1 cs1, .comp o2 cs2 => by
    have hl := listLex_eq_iff comparison_expression_cmp cs1
      (fun a _ b => comparison_expression_cmp_eq_iff a b) cs2
    simp [comparison_expression_cmp, comparisonListCmp_eq_listLex, then_eq_eq,
      boolOpCmp_lawful.eq_iff, hl]
termination_by a => sizeOf a
decreasing_by
  simp_wf
  rename_i ha
  have := List.sizeOf_lt_of_mem ha
  omega

theorem comparison_expression_cmp_swap :
    ∀ a b : CompE,
      comparison_expression_cmp b a = (comparison_expression_cmp a b).swap
  | .test p1 o1 v1 n1, .test p2 o2 v2 n2 =>
    testCmpP_lawful.swap (p1, o1, v1, n1) (p2, o2, v2, n2)
  | .test _ _ _ _, .comp _ _ => rfl
  | .comp _ _, .test _ _ _ _ => rfl
  | .comp o1 cs1, .comp o2 cs2 => by
    have hl := listLex_swap comparison_expression_cmp cs1
      (fun a _ b => comparison_expression_cmp_swap a b) cs2
    show (boolOpCmp o2 o1).then (comparisonListCmp cs2 cs1) =
      ((boolOpCmp o1 o2).then (comparisonListCmp cs1 cs2)).swap
    rw [comparisonListCmp_eq_listLex, comparisonListCmp_eq_listLex,
      boolOpCmp_lawful.swap o1 o2, hl, ← then_swap]
termination_by a => sizeOf a
decreasing_by
  simp_wf
  rename_i ha
  have := List.sizeOf_lt_of_mem ha
  omega

theorem comparison_expression_cmp_lt_trans :
    ∀ a b c : CompE, comparison_expression_cmp a b = .lt →
      comparison_expression_cmp b c = .lt →
      comparison_expression_cmp a c = .lt
  | .test p1 o1 v1 n1, .test p2 o2 v2 n2, .test p3 o3 v3 n3 =>
    testCmpP_lawful.lt_trans (p1, o1, v1, n1) (p2, o2, v2, n2) (p3, o3, v3, n3)
  | .test _ _ _ _, .test _ _ _ _, .comp _ _ => by
    intro _ _; rfl
  | .test _ _ _ _, .comp _ _, .comp _ _ => by
    intro _ _; rfl
  | .test _ _ _ _, .comp _ _, .test _ _ _ _ => by
    intro _ h2; simp [comparison_expression_cmp] at h2
  | .comp _ _, .test _ _ _ _, _ => by
    intro h1 _; simp [comparison_expression_cmp] at h1
  | .comp _ _, .comp _ _, .test _ _ _ _ => by
    intro _ h2; simp [comparison_expression_cmp] at h2
  | .comp o1 cs1, .comp o2 cs2, .comp o3 cs3 => by
    intro h1 h2
    simp only [comparison_expression_cmp, comparisonListCmp_eq_listLex,
      then_eq_lt, boolOpCmp_lawful.eq_iff] at h1 h2 ⊢
    rcases h1 with h1 | ⟨rfl, h1l⟩
    · rcases h2 with h2 | ⟨rfl, _⟩
      · exact Or.inl (boolOpCmp_lawful.lt_trans _ _ _ h1 h2)
      · exact Or.inl h1
    · rcases h2 with h2 | ⟨rfl, h2l⟩
      · exact Or.inl h2
      · exact Or.inr ⟨rfl,
          listLex_lt_trans comparison_expression_cmp
            comparison_expression_cmp_eq_iff cs1
            (fun a _ b c hab hbc =>
              comparison_expression_cmp_lt_trans a b c hab hbc)
            cs2 cs3 h1l h2l⟩
termination_by a => sizeOf a
decreasing_by
  simp_wf
  rename_i ha
  have := List.sizeOf_lt_of_mem ha
  omega

theorem observation_expression_cmp_eq_iff :
    ∀ a b : Obs, observation_expression_cmp a b = .eq ↔ a = b
  | .obs c1 q1, .obs c2 q2 => by
    have hq := listLex_eq_iff qualCmp q1
      (fun a _ b => qualCmp_lawful.eq_iff a b) q2
    simp only [observation_expression_cmp, qualListCmp_eq_listLex, then_eq_eq,
      hq, comparison_expression_cmp_eq_iff, ObservationExpression.obs.injEq]
    exact and_comm
  | .obs _ _, .compound _ _ => by simp [observation_expression_cmp]
  | .compound _ _, .obs _ _ => by simp [observation_expression_cmp]
  | .compound o1 cs1, .compound o2 cs2 => by
    have hl := listLex_eq_iff observation_expression_cmp cs1
      (fun a _ b => observation_expression_cmp_eq_iff a b) cs2
    simp [observation_expression_cmp, observationListCmp_eq_listLex,
      then_eq_eq, boolOpCmp_lawful.eq_iff, hl]
termination_by a => sizeOf a
decreasing_by
  simp_wf
  rename_i ha
  have := List.sizeOf_lt_of_mem ha
  omega

theorem observation_expression_cmp_swap :
    ∀ a b : Obs,
      observation_expression_cmp b a = (observation_expression_cmp a b).swap
  | .obs c1 q1, .obs c2 q2 => by
    have hq := listLex_swap qualCmp q1
      (fun a _ b => qualCmp_lawful.swap a b) q2
    show (qualListCmp q2 q1).then (comparison_expression_cmp c2 c1) =
      ((qualListCmp q1 q2).then (comparison_expression_cmp c1 c2)).swap
    rw [qualListCmp_eq_listLex, qualListCmp_eq_listLex, hq,
      comparison_expression_cmp_swap c1 c2, ← then_swap]
  | .obs _ _, .compound _ _ => rfl
  | .compound _ _, .obs _ _ => rfl
  | .compound o1 cs1, .compound o2 cs2 => by
    have hl := listLex_swap observation_expression_cmp cs1
      (fun a _ b => observation_expression_cmp_swap a b) cs2
    show (boolOpCmp o2 o1).then (observationListCmp cs2 cs1) =
      ((boolOpCmp o1 o2).then (observationListCmp cs1 cs2)).swap
    rw [observationListCmp_eq_listLex, observationListCmp_eq_listLex,
      boolOpCmp_lawful.swap o1 o2, hl, ← then_swap]
termination_by a => sizeOf a
decreasing_by
  simp_wf
  rename_i ha
  have := List.sizeOf_lt_of_mem ha
  omega

theorem observation_expression_cmp_refl (a : Obs) :
    observation_expression_cmp a a = .eq :=
  (observation_expression_cmp_eq_iff a a).2 rfl

instance : DecidableEq ComparisonExpression := fun a b =>
  decidable_of_iff _ (comparison_expression_cmp_eq_iff a b)

instance : DecidableEq ObservationExpression := fun a b =>
  decidable_of_iff _ (observation_expression_cmp_eq_iff a b)

/-- The non-strict child ordering induced by the comparison comparator, used
to sort comparison operand lists. -/
def compLe (a b : CompE) : Prop := comparison_expression_cmp a b ≠ .gt

instance : DecidableRel compLe := fun a b => by unfold compLe; infer_instance

instance : IsTotal CompE compLe where
  total a b := by
    unfold compLe
    cases h : comparison_expression_cmp a b
    · exact Or.inl (by simp [h])
    · exact Or.inl (by simp [h])
    · have hba : comparison_expression_cmp b a = .lt := by
        rw [comparison_expression_cmp_swap a b, h]; rfl
      exact Or.inr (by simp [hba])

instance : IsTrans CompE compLe where
  trans a b c hab hbc := by
    unfold compLe at hab hbc ⊢
    cases hab2 : comparison_expression_cmp a b with
    | eq =>
      obtain rfl := (comparison_expression_cmp_eq_iff a b).1 hab2
      exact hbc
    | gt => exact (hab hab2).elim
    | lt =>
      cases hbc2 : comparison_expression_cmp b c with
      | eq =>
        obtain rfl := (comparison_expression_cmp_eq_iff b c).1 hbc2
        simp [hab2]
      | gt => exact (hbc hbc2).elim
      | lt =>
        simp [comparison_expression_cmp_lt_trans a b c hab2 hbc2]

/-- The non-strict ordering induced by the observation comparator, used to
sort observation operand lists. -/
def obsLe (a b : Obs) : Prop := observation_expression_cmp a b ≠ .gt

instance : DecidableRel obsLe := fun a b => by unfold obsLe; infer_instance

/-- Removal of adjacent structural duplicates (used after sorting, where all
duplicates are adjacent). -/
def dedupeAdj {α : Type} [DecidableEq α] : List α → List α
  | [] => []
  | [a] => [a]
  | a :: b :: rest =>
    if a = b then dedupeAdj (b :: rest) else a :: dedupeAdj (b :: rest)

theorem dedupeAdj_sublist {α : Type} [DecidableEq α] :
    ∀ l : List α, List.Sublist (dedupeAdj l) l
  | [] => by simp [dedupeAdj]
  | [a] => by simp [dedupeAdj]
  | a :: b :: rest => by
    rw [dedupeAdj]
    split
    · exact (dedupeAdj_sublist (b :: rest)).cons a
    · exact (dedupeAdj_sublist (b :: rest)).cons₂ a

theorem dedupeAdj_cons_head {α : Type} [DecidableEq α] :
    ∀ (b : α) (rest : List α), ∃ t, dedupeAdj (b :: rest) = b :: t
  | _, [] => ⟨[], rfl⟩
  | b, c :: rest => by
    rw [dedupeAdj]
    split
    · rename_i h
      obtain ⟨t, ht⟩ := dedupeAdj_cons_head c rest
      exact ⟨t, by rw [ht, h]⟩
    · exact ⟨dedupeAdj (c :: rest), rfl⟩

theorem dedupeAdj_chain_ne {α : Type} [DecidableEq α] :
    ∀ l : List α, List.Chain' (· ≠ ·) (dedupeAdj l)
  | [] => by simp [dedupeAdj]
  | [a] => by simp [dedupeAdj]
  | a :: b :: rest => by
    rw [dedupeAdj]
    split
    · exact dedupeAdj_chain_ne (b :: rest)
    · rename_i hne
      obtain ⟨t, ht⟩ := dedupeAdj_cons_head b rest
      rw [ht]
      exact List.chain'_cons.2 ⟨hne, ht ▸ dedupeAdj_chain_ne (b :: rest)⟩

theorem dedupeAdj_eq_self {α : Type} [DecidableEq α] :
    ∀ l : List α, List.Chain' (· ≠ ·) l → dedupeAdj l = l
  | [], _ => rfl
  | [_], _ => rfl
  | a :: b :: rest, h => by
    rw [dedupeAdj, if_neg (List.chain'_cons.1 h).1,
      dedupeAdj_eq_self (b :: rest) (List.chain'_cons.1 h).2]

theorem dedupeAdj_ne_nil {α : Type} [DecidableEq α] (l : List α)
    (h : l ≠ []) : dedupeAdj l ≠ [] := by
  match l with
  | [] => exact (h rfl).elim
  | b :: rest =>
    obtain ⟨t, ht⟩ := dedupeAdj_cons_head b rest
    simp [ht]

/-! ## Canonicalization passes

The transformer classes imported by `_get_pattern_canonicalizer`
(CanonicalizeComparisonExpressionsTransformer, FlattenTransformer,
OrderDedupeTransformer, AbsorptionTransformer, DNFTransformer,
ChainTransformer, SettleTransformer) are not part of this repository
snapshot; each pass below is modelled from the spec, as noted. -/

/-- Modelled from the spec (section 4.1): the dual non-negated operator for
operators that have one; `in`, `like` and `matches` have none. -/
def compOpDual : CompOp → Option CompOp
  | .eq => some .ne
  | .ne => some .eq
  | .lt => some .ge
  | .ge => some .lt
  | .gt => some .le
  | .le => some .gt
  | _ => none

/-- Modelled from the spec (section 4.1): negation normalization of a
property test, preferring a non-negated dual operator where one exists. -/
def normalizeTest (path : String) (op : CompOp) (v : CompValue)
    (neg : Bool) : CompE :=
  if neg then
    match compOpDual op with
    | some d => .test path d v false
    | none => .test path op v true
  else .test path op v false

mutual

/-- Modelled from the spec (section 4.1): canonicalize a comparison
expression by normalizing leaf negation and, for compounds, recursively
canonicalizing children, sorting them by the comparison total order,
removing exact structural duplicates, and collapsing single-child
compounds. -/
def canonicalizeComparison : CompE → CompE
  | .test p o v n => normalizeTest p o v n
  | .comp op cs =>
    match dedupeAdj (List.insertionSort compLe (canonicalizeComparisonList cs)) with
    | [x] => x
    | l => .comp op l

def canonicalizeComparisonList : List CompE → List CompE
  | [] => []
  | c :: cs => canonicalizeComparison c :: canonicalizeComparisonList cs

end

mutual

/-- Modelled from the spec (section 4.1, lifted over the pattern as done by
CanonicalizeComparisonExpressionsTransformer): rewrite the comparison
expression inside every observation leaf; the observation structure itself
is unchanged. -/
def canonicalizeComparisonsPass : Obs → Obs
  | .obs c q => .obs (canonicalizeComparison c) q
  | .compound op cs => .compound op (canonicalizeComparisonsList cs)

def canonicalizeComparisonsList : List Obs → List Obs
  | [] => []
  | c :: cs => canonicalizeComparisonsPass c :: canonicalizeComparisonsList cs

end

/-- A compound reduced to a single child is replaced by that child (spec
sections 4.2 and 4.3). -/
def collapseObs (op : BoolOp) : List Obs → Obs
  | [x] => x
  | l => .compound op l

mutual

/-- Modelled from the spec (section 4.2): collapse nested same-operator
compounds into n-ary lists, bottom-up, and replace single-child compounds by
their child. -/
def flattenObs : Obs → Obs
  | .obs c q => .obs c q
  | .compound op cs => collapseObs op (flattenChildren op cs)

def flattenChildren (op : BoolOp) : List Obs → List Obs
  | [] => []
  | c :: rest =>
    (match flattenObs c with
     | .compound op2 gs =>
       if op2 = op then gs else [ObservationExpression.compound op2 gs]
     | fc => [fc]) ++ flattenChildren op rest

end

mutual

/-- Modelled from the spec (section 4.3): sort each compound's children by
the comparator total order, remove adjacent-after-sort structural
duplicates, and collapse single-child compounds. -/
def orderDedupeObs : Obs → Obs
  | .obs c q => .obs c q
  | .compound op cs =>
    collapseObs op (dedupeAdj (List.insertionSort obsLe (orderDedupeList cs)))

def orderDedupeList : List Obs → List Obs
  | [] => []
  | c :: cs => orderDedupeObs c :: orderDedupeList cs

end

/-- Modelled from the spec (section 4.4): a child is absorbed when it is an
opposite-operator compound one of whose operands structurally matches (by
the comparator) a different operand of the parent. -/
def absorbedBy (op : BoolOp) (siblings : List Obs) (c : Obs) : Bool :=
  match c with
  | .compound op2 gs =>
    decide (op2 ≠ op) && siblings.any (fun s =>
      !(observation_expression_cmp s c == .eq) &&
        gs.any (fun g => observation_expression_cmp s g == .eq))
  | _ => false

mutual

/-- Modelled from the spec (section 4.4): apply the boolean absorption laws,
removing absorbed children at every nesting level and collapsing
singletons. -/
def absorbObs : Obs → Obs
  | .obs c q => .obs c q
  | .compound op cs =>
    let cs2 := absorbList cs
    collapseObs op (cs2.filter (fun c => !(absorbedBy op cs2 c)))

def absorbList : List Obs → List Obs
  | [] => []
  | c :: cs => absorbObs c :: absorbList cs

end

def isOrNode : Obs → Bool
  | .compound .or _ => true
  | _ => false

/-- The DNF clause list of a tree already in disjunctive normal form: the
children of a top-level OR, else the tree itself as a single clause. -/
def clauses : Obs → List Obs
  | .compound .or cs => cs
  | t => [t]

/-- The conjuncts of an AND-clause. -/
def andParts : Obs → List Obs
  | .compound .and cs => cs
  | t => [t]

def mkAnd (l : List Obs) : Obs := collapseObs .and l

def mkOr (l : List Obs) : Obs := collapseObs .or l

/-- All ways of choosing one element from each list. -/
def cartesianProduct {α : Type} : List (List α) → List (List α)
  | [] => [[]]
  | l :: ls => l.flatMap (fun x => (cartesianProduct ls).map (fun c => x :: c))

mutual

/-- Modelled from the spec (section 4.7): recursively transform children to
DNF; an AND node with an OR child distributes by taking, for every
combination of one clause from each child, the cross-product AND-clause; OR
nodes concatenate their children's clause lists. -/
def dnfObs : Obs → Obs
  | .obs c q => .obs c q
  | .compound .and cs =>
    let cs2 := dnfList cs
    if cs2.any isOrNode then
      mkOr ((cartesianProduct (cs2.map clauses)).map
        (fun combo => mkAnd (combo.flatMap andParts)))
    else .compound .and cs2
  | .compound .or cs => mkOr ((dnfList cs).flatMap clauses)

def dnfList : List Obs → List Obs
  | [] => []
  | c :: cs => dnfObs c :: dnfList cs

end

/-- A transformer step: the rewritten tree plus a changed flag.  Modelled
from the spec: each pass reports changed exactly when it rewrote the tree. -/
def step (f : Obs → Obs) (t : Obs) : Obs × Bool := (f t, decide (f t ≠ t))

/-- Modelled from the spec (section 4.5): the observation-simplify pass
ChainTransformer(Flatten, OrderDedupe, Absorption), threading the tree
through each pass and OR-ing the changed flags. -/
def simplifyStep (t : Obs) : Obs × Bool :=
  let r1 := step flattenObs t
  let r2 := step orderDedupeObs r1.1
  let r3 := step absorbObs r2.1
  (r3.1, r1.2 || r2.2 || r3.2)

/-- Errors surfaced by the engine (spec section 7): parse errors from the
external parser, and the Settle combinator's non-convergence. -/
inductive EquivError : Type
  | parseError (msg : String)
  | nonConvergence
  deriving DecidableEq

/-- Modelled from the spec (section 4.6): iterate a wrapped pass until its
changed flag is false, guarded by a maximum-iteration bound; exceeding the
bound raises the fatal NonConvergenceError rather than returning a
partially-simplified tree.  The accumulator records whether any iteration
changed the tree. -/
def settleAux (pass : Obs → Obs × Bool) :
    Nat → Obs → Bool → Except EquivError (Obs × Bool)
  | 0, _, _ => .error .nonConvergence
  | bound + 1, t, acc =>
    if (pass t).2 then settleAux pass bound (pass t).1 true
    else .ok (t, acc)

/-- The SettleTransformer wrapping the observation-simplify chain. -/
def settleTransform (bound : Nat) (t : Obs) : Except EquivError (Obs × Bool) :=
  settleAux simplifyStep bound t false

/-- The full canonicalization pipeline, as composed by
`_get_pattern_canonicalizer` (src lines 38 to 57):
ChainTransformer(CanonicalizeComparisonExpressions,
Settle(Flatten, OrderDedupe, Absorption), DNF, Settle(same)).  The Settle
iteration bound is an explicit parameter. -/
def pattern_canonicalizer_transform (bound : Nat) (t : Obs) :
    Except EquivError (Obs × Bool) :=
  match settleTransform bound (step canonicalizeComparisonsPass t).1 with
  | .error e => .error e
  | .ok (t2, c2) =>
    match settleTransform bound (step dnfObs t2).1 with
    | .error e => .error e
    | .ok (t4, c4) =>
      .ok (t4,
        (step canonicalizeComparisonsPass t).2 || c2 || (step dnfObs t2).2 || c4)

/-- The external parser contract (spec section 6), with the pattern-language
version already applied: pattern text to AST or parse error. -/
abbrev PatternParser := String → Except String Obs

/-- Translated from `equivalent_patterns` (src lines 60 to 86): parse both
patterns, canonicalize each with the shared pipeline, compare the canonical
forms with the comparator, and return whether the result is the equal
outcome. -/
def equivalent_patterns (parse : PatternParser) (bound : Nat)
    (pattern1 pattern2 : String) : Except EquivError Bool :=
  match parse pattern1 with
  | .error e => .error (.parseError e)
  | .ok pattAst1 =>
    match parse pattern2 with
    | .error e => .error (.parseError e)
    | .ok pattAst2 =>
      match pattern_canonicalizer_transform bound pattAst1 with
      | .error e => .error e
      | .ok (canonPatt1, _) =>
        match pattern_canonicalizer_transform bound pattAst2 with
        | .error e => .error e
        | .ok (canonPatt2, _) =>
          .ok (observation_expression_cmp canonPatt1 canonPatt2 == .eq)

/-- State of the generator object returned by `find_equivalent_patterns`.
A Python generator defers its body: the freshly returned generator holds the
raw arguments; after the first resumption the precomputed canonical search
AST and the remaining candidates are held; a completed generator is
finished. -/
inductive GenState : Type
  | initial (search_pattern : String) (patterns : List String)
  | running (canonSearchAst : Obs) (patterns : List String)
  | finished
  deriving DecidableEq

/-- Observable steps of the streaming search, used to state evaluation-order
properties: when the search pattern is parsed and canonicalized, and when
each candidate is parsed, canonicalized, compared and yielded. -/
inductive RunEvent : Type
  | parseSearch
  | canonSearch
  | parseCandidate (pattern : String)
  | canonCandidate (pattern : String)
  | compareCandidate (pattern : String)
  | yieldCandidate (pattern : String)
  deriving DecidableEq

/-- Outcome of fully consuming the generator: the events in order, the
yielded original candidate strings in order, and the terminal error if the
iteration raised one. -/
structure RunResult : Type where
  events : List RunEvent
  yields : List String
  failure : Option EquivError
  deriving DecidableEq

/-- Translated from the loop of `find_equivalent_patterns` (src lines 117 to
128), run to exhaustion: parse and canonicalize each candidate in order,
compare its canonical form against the precomputed canonical search AST, and
yield the original candidate string on the equal outcome; an error aborts
the scan at that point. -/
def scanCandidates (parse : PatternParser) (bound : Nat)
    (canonSearchAst : Obs) : List String → RunResult
  | [] => ⟨[], [], none⟩
  | pattern :: rest =>
    match parse pattern with
    | .error e => ⟨[.parseCandidate pattern], [], some (.parseError e)⟩
    | .ok patternAst =>
      match pattern_canonicalizer_transform bound patternAst with
      | .error e =>
        ⟨[.parseCandidate pattern, .canonCandidate pattern], [], some e⟩
      | .ok (canonPatternAst, _) =>
        let r := scanCandidates parse bound canonSearchAst rest
        if observation_expression_cmp canonSearchAst canonPatternAst = .eq then
          ⟨.parseCandidate pattern :: .canonCandidate pattern ::
              .compareCandidate pattern :: .yieldCandidate pattern :: r.events,
            pattern :: r.yields, r.failure⟩
        else
          ⟨.parseCandidate pattern :: .canonCandidate pattern ::
              .compareCandidate pattern :: r.events, r.yields, r.failure⟩

/-- Translated from `find_equivalent_patterns` (src lines 89 to 128): in
Python, calling a generator function executes none of its body; the call
merely packages the arguments into a suspended generator and can propagate
no exception (the `Except` codomain records exactly that). -/
def find_equivalent_patterns (search_pattern : String)
    (patterns : List String) : Except EquivError GenState :=
  .ok (.initial search_pattern patterns)

/-- Advance the candidate scan to the next yield (the part of the generator
body between two yields): events performed, and either an error, the end of
the stream, or the yielded candidate with the successor state. -/
def scanStep (parse : PatternParser) (bound : Nat) (canonSearchAst : Obs) :
    List String → List RunEvent × Except EquivError (Option (String × GenState))
  | [] => ([], .ok none)
  | pattern :: rest =>
    match parse pattern with
    | .error e => ([.parseCandidate pattern], .error (.parseError e))
    | .ok patternAst =>
      match pattern_canonicalizer_transform bound patternAst with
      | .error e =>
        ([.parseCandidate pattern, .canonCandidate pattern], .error e)
      | .ok (canonPatternAst, _) =>
        if observation_expression_cmp canonSearchAst canonPatternAst = .eq then
          ([.parseCandidate pattern, .canonCandidate pattern,
              .compareCandidate pattern, .yieldCandidate pattern],
            .ok (some (pattern, .running canonSearchAst rest)))
        else
          let r := scanStep parse bound canonSearchAst rest
          (.parseCandidate pattern :: .canonCandidate pattern ::
              .compareCandidate pattern :: r.1, r.2)

/-- One resumption of the generator (one `next()` call): the first
resumption runs the body from the top — parse the search pattern,
canonicalize it once — and then scans candidates; later resumptions resume
the scan with the held canonical search AST. -/
def genNext (parse : PatternParser) (bound : Nat) :
    GenState → List RunEvent × Except EquivError (Option (String × GenState))
  | .initial s L =>
    match parse s with
    | .error e => ([.parseSearch], .error (.parseError e))
    | .ok searchAst =>
      match pattern_canonicalizer_transform bound searchAst with
      | .error e => ([.parseSearch, .canonSearch], .error e)
      | .ok (canonSearchAst, _) =>
        let r := scanStep parse bound canonSearchAst L
        (.parseSearch :: .canonSearch :: r.1, r.2)
  | .running canonSearchAst L => scanStep parse bound canonSearchAst L
  | .finished => ([], .ok none)

/-- A full consumption of the generator returned by
`find_equivalent_patterns` (as in list(...)): the search pattern is parsed
and canonicalized once up front, then the candidates are scanned in order. -/
def genRun (parse : PatternParser) (bound : Nat) (search_pattern : String)
    (patterns : List String) : RunResult :=
  match parse search_pattern with
  | .error e => ⟨[.parseSearch], [], some (.parseError e)⟩
  | .ok searchAst =>
    match pattern_canonicalizer_transform bound searchAst with
    | .error e => ⟨[.parseSearch, .canonSearch], [], some e⟩
    | .ok (canonSearchAst, _) =>
      let r := scanCandidates parse bound canonSearchAst patterns
      ⟨.parseSearch :: .canonSearch :: r.events, r.yields, r.failure⟩

/-! ## Data markings (src/stix2/markings/__init__.py) -/

abbrev MarkingId := String
abbrev Selectors := List String

/-- Translated from `get_markings` (src/stix2/markings/__init__.py lines 11
to 45).  The collaborators `object_markings.get_markings` and
`granular_markings.get_markings` operate on the object captured here by the
`object_marks` value and the `granular_marks` function (they are not part of
this snapshot); `list(set(results))` is modelled as deduplication of the
collected list, since Python set iteration order is unspecified. -/
def get_markings (object_marks : List MarkingId)
    (granular_marks : Selectors → Bool → Bool → List MarkingId)
    (selectors : Option Selectors) (inherited descendants : Bool) :
    List MarkingId :=
  match selectors with
  | none => object_marks
  | some sel =>
    let results := granular_marks sel inherited descendants
    let results := if inherited then results ++ object_marks else results
    results.dedup

instance {ε α : Type} [DecidableEq ε] [DecidableEq α] :
    DecidableEq (Except ε α) := fun x y =>
  match x, y with
  | .error e1, .error e2 =>
    if h : e1 = e2 then isTrue (by rw [h]) else isFalse (by simp [h])
  | .ok a1, .ok a2 =>
    if h : a1 = a2 then isTrue (by rw [h]) else isFalse (by simp [h])
  | .error _, .ok _ => isFalse (by simp)
  | .ok _, .error _ => isFalse (by simp)

/-! ## Concrete fixtures used by the witness theorems -/

def leafA : Obs := .obs (.test "a:b" .eq (.num 1) false) []

def leafC : Obs := .obs (.test "c:d" .eq (.num 2) false) []

/-- A concrete instance of the external parser contract, mapping a few fixed
pattern strings to their ASTs, used to evaluate the theorems on concrete
inputs. -/
def testParse : PatternParser := fun s =>
  if s = "[a:b=1]" then .ok leafA
  else if s = "[c:d=2]" then .ok leafC
  else if s = "[a:b=1] AND [c:d=2]" then .ok (.compound .and [leafA, leafC])
  else if s = "[c:d=2] AND [a:b=1]" then .ok (.compound .and [leafC, leafA])
  else if s = "[a:b=1] OR [a:b=1]" then .ok (.compound .or [leafA, leafA])
  else .error "parse error"

/-! ## Settle combinator lemmas -/

theorem settleAux_error (pass : Obs → Obs × Bool) :
    ∀ (bound : Nat) (t : Obs) (acc : Bool) (e : EquivError),
      settleAux pass bound t acc = .error e → e = .nonConvergence
  | 0, t, acc, e, h => by
    rw [settleAux] at h
    injection h with h
    exact h.symm
  | bound + 1, t, acc, e, h => by
    rw [settleAux] at h
    split at h
    · exact settleAux_error pass bound _ _ e h
    · exact Except.noConfusion h

theorem settleAux_ok_fixed (pass : Obs → Obs × Bool) :
    ∀ (bound : Nat) (t : Obs) (acc : Bool) (r : Obs × Bool),
      settleAux pass bound t acc = .ok r → (pass r.1).2 = false
  | 0, _, _, _, h => by rw [settleAux] at h; exact Except.noConfusion h
  | bound + 1, t, acc, r, h => by
    rw [settleAux] at h
    split at h
    · exact settleAux_ok_fixed pass bound _ _ r h
    · rename_i hcond
      injection h with h
      subst h
      simp at hcond
      exact hcond

theorem settleAux_fixed_ok (pass : Obs → Obs × Bool) (bound : Nat) (t : Obs)
    (acc : Bool) (hfix : (pass t).2 = false) :
    settleAux pass (bound + 1) t acc = .ok (t, acc) := by
  rw [settleAux, if_neg (by simp [hfix])]

theorem settleAux_ok_invariant (pass : Obs → Obs × Bool) (P : Obs → Prop)
    (hP : ∀ u, P u → P (pass u).1) :
    ∀ (bound : Nat) (t : Obs) (acc : Bool) (r : Obs × Bool), P t →
      settleAux pass bound t acc = .ok r → P r.1
  | 0, _, _, _, _, h => by rw [settleAux] at h; exact Except.noConfusion h
  | bound + 1, t, acc, r, hp, h => by
    rw [settleAux] at h
    split at h
    · exact settleAux_ok_invariant pass P hP bound _ _ r (hP t hp) h
    · injection h with h
      subst h
      exact hp

theorem ordering_beq_eq (o : Ordering) :
    ((o == Ordering.eq) = true) ↔ o = Ordering.eq := by
  cases o <;> decide

theorem pattern_canonicalizer_error (bound : Nat) (t : Obs) (e : EquivError)
    (h : pattern_canonicalizer_transform bound t = .error e) :
    e = .nonConvergence := by
  unfold pattern_canonicalizer_transform at h
  cases h1 : settleTransform bound (step canonicalizeComparisonsPass t).1 with
  | error e1 =>
    simp only [h1] at h
    injection h with h
    exact h ▸ settleAux_error _ _ _ _ _ h1
  | ok r2 =>
    obtain ⟨t2, c2⟩ := r2
    simp only [h1] at h
    cases h2 : settleTransform bound (step dnfObs t2).1 with
    | error e2 =>
      simp only [h2] at h
      injection h with h
      exact h ▸ settleAux_error _ _ _ _ _ h2
    | ok r4 =>
      obtain ⟨t4, c4⟩ := r4
      simp only [h2] at h
      exact Except.noConfusion h

/-- C2: for parseable patterns whose canonicalization succeeds,
`equivalent_patterns` returns true exactly when the comparator applied to
the two canonical forms produced by the full pipeline returns the equal
result; no evaluation against observed data occurs anywhere in the
computation. -/
theorem equivalent_patterns_iff_comparator_eq
    (parse : PatternParser) (bound : Nat) (p1 p2 : String)
    (a1 a2 : Obs) (c1 c2 : Obs) (ch1 ch2 : Bool)
    (h1 : parse p1 = .ok a1) (h2 : parse p2 = .ok a2)
    (hc1 : pattern_canonicalizer_transform bound a1 = .ok (c1, ch1))
    (hc2 : pattern_canonicalizer_transform bound a2 = .ok (c2, ch2)) :
    equivalent_patterns parse bound p1 p2 = .ok true ↔
      observation_expression_cmp c1 c2 = .eq := by
  unfold equivalent_patterns
  simp only [h1, h2, hc1, hc2, Except.ok.injEq]
  exact ordering_beq_eq _

/-- C2 witness: evaluated at the concrete fixtures. -/
theorem equivalent_patterns_iff_comparator_eq_witness :
    equivalent_patterns testParse 5 "[a:b=1] AND [c:d=2]" "[c:d=2] AND [a:b=1]"
        = .ok true ↔
      observation_expression_cmp (.compound .and [leafA, leafC])
        (.compound .and [leafA, leafC]) = .eq :=
  equivalent_patterns_iff_comparator_eq testParse 5
    "[a:b=1] AND [c:d=2]" "[c:d=2] AND [a:b=1]"
    (.compound .and [leafA, leafC]) (.compound .and [leafC, leafA])
    (.compound .and [leafA, leafC]) (.compound .and [leafA, leafC])
    false true (by decide) (by decide) (by decide) (by decide)

/-- C4: on every input, the Settle combinator either converges — returning a
tree on which the wrapped pass reports changed = false — or fails with the
fatal NonConvergenceError when the iteration bound is exhausted; it never
returns a partially-simplified (non-settled) tree and never silently
truncates the iteration. -/
theorem settle_bound_exceeded_is_fatal (pass : Obs → Obs × Bool)
    (bound : Nat) (t : Obs) :
    (∀ e, settleAux pass bound t false = .error e → e = .nonConvergence) ∧
    (∀ r, settleAux pass bound t false = .ok r → (pass r.1).2 = false) :=
  ⟨fun e h => settleAux_error pass bound t false e h,
   fun r h => settleAux_ok_fixed pass bound t false r h⟩

/-- C4 witness: the zero-bound run fails with NonConvergenceError, and a
converged run returns a settled tree, at concrete inputs. -/
theorem settle_bound_exceeded_is_fatal_witness :
    EquivError.nonConvergence = EquivError.nonConvergence ∧
      (simplifyStep leafA).2 = false :=
  ⟨(settle_bound_exceeded_is_fatal simplifyStep 0 leafA).1
      EquivError.nonConvergence (by decide),
   (settle_bound_exceeded_is_fatal simplifyStep 1 leafA).2 (leafA, false)
      (by decide)⟩

/-- C7: `equivalent_patterns` is reflexive on every parseable pattern whose
canonicalization succeeds. -/
theorem equivalent_patterns_refl (parse : PatternParser) (bound : Nat)
    (p : String) (a c : Obs) (ch : Bool) (hp : parse p = .ok a)
    (hc : pattern_canonicalizer_transform bound a = .ok (c, ch)) :
    equivalent_patterns parse bound p p = .ok true := by
  unfold equivalent_patterns
  simp only [hp, hc, Except.ok.injEq]
  rw [observation_expression_cmp_refl c]
  rfl

/-- C7 witness: reflexivity evaluated at a concrete pattern. -/
theorem equivalent_patterns_refl_witness :
    equivalent_patterns testParse 5 "[a:b=1]" "[a:b=1]" = .ok true :=
  equivalent_patterns_refl testParse 5 "[a:b=1]" leafA leafA false
    (by decide) (by decide)

theorem ordering_swap_beq_eq (o : Ordering) :
    (o.swap == Ordering.eq) = (o == Ordering.eq) := by
  cases o <;> rfl

/-- C6: `equivalent_patterns` is symmetric: for parseable patterns the two
argument orders return the same outcome. -/
theorem equivalent_patterns_symm (parse : PatternParser) (bound : Nat)
    (p1 p2 : String) (a1 a2 : Obs)
    (h1 : parse p1 = .ok a1) (h2 : parse p2 = .ok a2) :
    equivalent_patterns parse bound p1 p2 =
      equivalent_patterns parse bound p2 p1 := by
  unfold equivalent_patterns
  simp only [h1, h2]
  cases hc1 : pattern_canonicalizer_transform bound a1 with
  | error e1 =>
    cases hc2 : pattern_canonicalizer_transform bound a2 with
    | error e2 =>
      simp only [hc1, hc2]
      rw [pattern_canonicalizer_error _ _ _ hc1,
        pattern_canonicalizer_error _ _ _ hc2]
    | ok r2 =>
      obtain ⟨c2, x2⟩ := r2
      simp only [hc1, hc2]
  | ok r1 =>
    obtain ⟨c1, x1⟩ := r1
    cases hc2 : pattern_canonicalizer_transform bound a2 with
    | error e2 =>
      simp only [hc1, hc2]
    | ok r2 =>
      obtain ⟨c2, x2⟩ := r2
      simp only [hc1, hc2, Except.ok.injEq]
      rw [observation_expression_cmp_swap c1 c2, ordering_swap_beq_eq]

/-- C6 witness: symmetry evaluated at concrete patterns. -/
theorem equivalent_patterns_symm_witness :
    equivalent_patterns testParse 5 "[a:b=1]" "[c:d=2]" =
      equivalent_patterns testParse 5 "[c:d=2]" "[a:b=1]" :=
  equivalent_patterns_symm testParse 5 "[a:b=1]" "[c:d=2]" leafA leafC
    (by decide) (by decide)

theorem scanCandidates_yields (parse : PatternParser) (bound : Nat)
    (s : String) (a canonS : Obs) (ch : Bool)
    (hs : parse s = .ok a)
    (hcs : pattern_canonicalizer_transform bound a = .ok (canonS, ch)) :
    ∀ L : List String,
      (∀ c ∈ L, ∃ ac cc chc, parse c = .ok ac ∧
        pattern_canonicalizer_transform bound ac = .ok (cc, chc)) →
      (scanCandidates parse bound canonS L).yields =
        L.filter
          (fun c => decide (equivalent_patterns parse bound s c = .ok true)) ∧
      (scanCandidates parse bound canonS L).failure = none := by
  intro L
  induction L with
  | nil => intro _; exact ⟨rfl, rfl⟩
  | cons c rest ih =>
    intro hL
    obtain ⟨ac, cc, chc, hpc, hcc⟩ := hL c (by simp)
    have hrest := ih (fun x hx => hL x (by simp [hx]))
    have hiff := equivalent_patterns_iff_comparator_eq parse bound s c a ac
      canonS cc ch chc hs hpc hcs hcc
    rw [scanCandidates]
    simp only [hpc, hcc, List.filter_cons]
    by_cases hcmp : observation_expression_cmp canonS cc = .eq
    · rw [if_pos hcmp, if_pos (decide_eq_true (hiff.mpr hcmp))]
      exact ⟨by simp [hrest.1], hrest.2⟩
    · rw [if_neg hcmp, if_neg (by simp [decide_eq_false
        (fun he => hcmp (hiff.mp he))])]
      exact ⟨by simp [hrest.1], hrest.2⟩

/-- C1: fully consuming `find_equivalent_patterns` yields exactly the
candidates (the original strings, in input order) on which
`equivalent_patterns` against the search pattern returns true. -/
theorem find_equivalent_patterns_streaming_correct
    (parse : PatternParser) (bound : Nat) (s : String) (a canonS : Obs)
    (ch : Bool) (L : List String)
    (hs : parse s = .ok a)
    (hcs : pattern_canonicalizer_transform bound a = .ok (canonS, ch))
    (hL : ∀ c ∈ L, ∃ ac cc chc, parse c = .ok ac ∧
      pattern_canonicalizer_transform bound ac = .ok (cc, chc)) :
    (genRun parse bound s L).yields =
      L.filter
        (fun c => decide (equivalent_patterns parse bound s c = .ok true)) ∧
    (genRun parse bound s L).failure = none := by
  unfold genRun
  simp only [hs, hcs]
  exact scanCandidates_yields parse bound s a canonS ch hs hcs L hL

/-- C1 witness: the stream over three concrete candidates yields exactly the
two equivalent ones, in order, as original strings. -/
theorem find_equivalent_patterns_streaming_correct_witness :
    (genRun testParse 5 "[a:b=1]"
        ["[a:b=1]", "[c:d=2]", "[a:b=1] OR [a:b=1]"]).yields =
      ["[a:b=1]", "[c:d=2]", "[a:b=1] OR [a:b=1]"].filter
        (fun c => decide (equivalent_patterns testParse 5 "[a:b=1]" c
          = .ok true)) ∧
    (genRun testParse 5 "[a:b=1]"
        ["[a:b=1]", "[c:d=2]", "[a:b=1] OR [a:b=1]"]).failure = none :=
  find_equivalent_patterns_streaming_correct testParse 5 "[a:b=1]" leafA leafA
    false ["[a:b=1]", "[c:d=2]", "[a:b=1] OR [a:b=1]"] (by decide) (by decide)
    (by

      intro c hc
      simp only [List.mem_cons, List.not_mem_nil, or_false] at hc
      rcases hc with rfl | rfl | rfl
      · exact ⟨leafA, leafA, false, by decide, by decide⟩
      · exact ⟨leafC, leafC, false, by decide, by decide⟩
      · exact ⟨.compound .or [leafA, leafA], leafA, true, by decide, by decide⟩)

theorem scanCandidates_events_no_canonSearch (parse : PatternParser)
    (bound : Nat) (canonS : Obs) :
    ∀ L : List String,
      (scanCandidates parse bound canonS L).events.count RunEvent.canonSearch
        = 0 := by
  intro L
  induction L with
  | nil => rfl
  | cons c rest ih =>
    rw [scanCandidates]
    cases hp : parse c with
    | error e => simp [List.count_cons]
    | ok ac =>
      cases hcc : pattern_canonicalizer_transform bound ac with
      | error e => simp [hcc, List.count_cons]
      | ok r =>
        obtain ⟨cc, chc⟩ := r
        by_cases hcmp : observation_expression_cmp canonS cc = .eq
        · simp [hcc, hcmp, List.count_cons, ih]
        · simp [hcc, hcmp, List.count_cons, ih]

/-- C3: during a full run of `find_equivalent_patterns` with a parseable
search pattern, the canonicalization pipeline is invoked on the search
pattern exactly once, whatever the candidate list (including the empty
one); every candidate comparison reuses the precomputed canonical search
AST. -/
theorem find_equivalent_patterns_canonicalizes_search_once
    (parse : PatternParser) (bound : Nat) (s : String) (a : Obs)
    (hs : parse s = .ok a) (L : List String) :
    (genRun parse bound s L).events.count RunEvent.canonSearch = 1 := by
  unfold genRun
  simp only [hs]
  cases hc : pattern_canonicalizer_transform bound a with
  | error e => rfl
  | ok r =>
    obtain ⟨canonS, ch⟩ := r
    simp [List.count_cons, scanCandidates_events_no_canonSearch parse bound
      canonS L]

/-- C3 witness: exactly one search canonicalization, evaluated both on an
empty and a non-empty concrete candidate list. -/
theorem find_equivalent_patterns_canonicalizes_search_once_witness :
    (genRun testParse 5 "[a:b=1]" []).events.count RunEvent.canonSearch = 1 ∧
    (genRun testParse 5 "[a:b=1]"
        ["[a:b=1]", "[c:d=2]"]).events.count RunEvent.canonSearch = 1 :=
  ⟨find_equivalent_patterns_canonicalizes_search_once testParse 5 "[a:b=1]"
      leafA (by decide) [],
   find_equivalent_patterns_canonicalizes_search_once testParse 5 "[a:b=1]"
      leafA (by decide) ["[a:b=1]", "[c:d=2]"]⟩

theorem scanCandidates_append_error (parse : PatternParser) (bound : Nat)
    (canonS : Obs) (c : String) (e : String) (hc : parse c = .error e)
    (L2 : List String) :
    ∀ L1 : List String,
      scanCandidates parse bound canonS (L1 ++ c :: L2) =
        scanCandidates parse bound canonS (L1 ++ [c])
  | [] => by
    simp only [List.nil_append]
    rw [scanCandidates, scanCandidates]
    simp only [hc]
  | x :: L1 => by
    simp only [List.cons_append]
    rw [scanCandidates, scanCandidates]
    have hrec := scanCandidates_append_error parse bound canonS c e hc L2 L1
    cases hp : parse x with
    | error e2 => simp only [hp]
    | ok ax =>
      cases hcx : pattern_canonicalizer_transform bound ax with
      | error e2 => simp only [hp, hcx]
      | ok r =>
        obtain ⟨cx, chx⟩ := r
        simp only [hp, hcx]
        by_cases hcmp : observation_expression_cmp canonS cx = .eq
        · simp only [if_pos hcmp, hrec]
        · simp only [if_neg hcmp, hrec]

theorem scanCandidates_error_at (parse : PatternParser) (bound : Nat)
    (s : String) (a canonS : Obs) (ch : Bool) (c : String) (e : String)
    (hs : parse s = .ok a)
    (hcs : pattern_canonicalizer_transform bound a = .ok (canonS, ch))
    (hc : parse c = .error e) :
    ∀ L1 : List String,
      (∀ x ∈ L1, ∃ ax cx chx, parse x = .ok ax ∧
        pattern_canonicalizer_transform bound ax = .ok (cx, chx)) →
      (scanCandidates parse bound canonS (L1 ++ [c])).failure =
        some (.parseError e) ∧
      (scanCandidates parse bound canonS (L1 ++ [c])).yields =
        L1.filter
          (fun x => decide (equivalent_patterns parse bound s x = .ok true))
  | [] => by
    intro _
    simp only [List.nil_append]
    rw [scanCandidates]
    simp only [hc]
    exact ⟨by trivial, by trivial⟩
  | x :: L1 => by
    intro hL1
    obtain ⟨ax, cx, chx, hpx, hcx⟩ := hL1 x (by simp)
    have hrec := scanCandidates_error_at parse bound s a canonS ch c e hs hcs
      hc L1 (fun y hy => hL1 y (by simp [hy]))
    have hiff := equivalent_patterns_iff_comparator_eq parse bound s x a ax
      canonS cx ch chx hs hpx hcs hcx
    simp only [List.cons_append]
    rw [scanCandidates]
    simp only [hpx, hcx, List.filter_cons]
    by_cases hcmp : observation_expression_cmp canonS cx = .eq
    · rw [if_pos hcmp, if_pos (decide_eq_true (hiff.mpr hcmp))]
      exact ⟨hrec.1, by simp [hrec.2]⟩
    · rw [if_neg hcmp, if_neg (by simp [decide_eq_false
        (fun he => hcmp (hiff.mp he))])]
      exact ⟨hrec.1, by simp [hrec.2]⟩

/-- C9: a candidate whose parsing fails aborts the stream at that point: the
whole run is identical to the run in which the candidates after the
malformed one are removed (so no later candidate is ever examined), the
error is the candidate's parse error (the candidate is not skipped), and the
yields are exactly the matching candidates before it. -/
theorem candidate_parse_error_aborts_stream (parse : PatternParser)
    (bound : Nat) (s : String) (a canonS : Obs) (ch : Bool)
    (L1 L2 : List String) (c : String) (e : String)
    (hs : parse s = .ok a)
    (hcs : pattern_canonicalizer_transform bound a = .ok (canonS, ch))
    (hL1 : ∀ x ∈ L1, ∃ ax cx chx, parse x = .ok ax ∧
      pattern_canonicalizer_transform bound ax = .ok (cx, chx))
    (hc : parse c = .error e) :
    genRun parse bound s (L1 ++ c :: L2) = genRun parse bound s (L1 ++ [c]) ∧
    (genRun parse bound s (L1 ++ c :: L2)).failure =
      some (.parseError e) ∧
    (genRun parse bound s (L1 ++ c :: L2)).yields =
      L1.filter
        (fun x => decide (equivalent_patterns parse bound s x = .ok true)) := by
  have hscan := scanCandidates_append_error parse bound canonS c e hc L2 L1
  have herr := scanCandidates_error_at parse bound s a canonS ch c e hs hcs
    hc L1 hL1
  unfold genRun
  simp only [hs, hcs, hscan]
  exact ⟨by trivial, herr.1, herr.2⟩

/-- C9 witness: a malformed candidate in the middle of a concrete stream
aborts it with the parse error after yielding the earlier match. -/
theorem candidate_parse_error_aborts_stream_witness :
    genRun testParse 5 "[a:b=1]" (["[a:b=1]"] ++ "bad(" :: ["[c:d=2]"]) =
      genRun testParse 5 "[a:b=1]" (["[a:b=1]"] ++ ["bad("]) ∧
    (genRun testParse 5 "[a:b=1]"
        (["[a:b=1]"] ++ "bad(" :: ["[c:d=2]"])).failure =
      some (.parseError "parse error") ∧
    (genRun testParse 5 "[a:b=1]"
        (["[a:b=1]"] ++ "bad(" :: ["[c:d=2]"])).yields =
      ["[a:b=1]"].filter
        (fun x => decide (equivalent_patterns testParse 5 "[a:b=1]" x
          = .ok true)) :=
  candidate_parse_error_aborts_stream testParse 5 "[a:b=1]" leafA leafA false
    ["[a:b=1]"] ["[c:d=2]"] "bad(" "parse error" (by decide) (by decide)
    (by
      intro x hx
      simp only [List.mem_cons, List.not_mem_nil, or_false] at hx
      subst hx
      exact ⟨leafA, leafA, false, by decide, by decide⟩)
    (by decide)

/-- C5 counterexample: with a malformed search pattern, the call to
`find_equivalent_patterns` itself completes without the parse error: the
generator body is deferred (Python generator semantics), so the call returns
a suspended generator, contradicting propagation of the error immediately
upon the call. -/
theorem find_equivalent_patterns_call_does_not_raise :
    testParse "bad(" = .error "parse error" ∧
    find_equivalent_patterns "bad(" ["[a:b=1]"] =
      .ok (.initial "bad(" ["[a:b=1]"]) :=
  ⟨by decide, rfl⟩

/-- C5 amended: the parse error on a malformed search pattern propagates at
the first advance of the returned generator, before any candidate is
scanned or parsed: the failing first resumption performs only the
search-pattern parse attempt and raises that error. -/
theorem search_parse_error_fails_fast (parse : PatternParser) (bound : Nat)
    (s : String) (e : String) (L : List String) (hs : parse s = .error e) :
    genNext parse bound (.initial s L) =
      ([RunEvent.parseSearch], .error (.parseError e)) := by
  unfold genNext
  simp only [hs]

/-- C5 amended witness: evaluated on a concrete malformed search pattern. -/
theorem search_parse_error_fails_fast_witness :
    genNext testParse 5 (.initial "bad(" ["[a:b=1]"]) =
      ([RunEvent.parseSearch], .error (.parseError "parse error")) :=
  search_parse_error_fails_fast testParse 5 "bad(" "parse error" ["[a:b=1]"]
    (by decide)

/-- C10: with non-None selectors, `get_markings` returns a duplicate-free
list with set semantics: a marking is in the result exactly when it is among
the collected granular markings or, when inherited is true, among the
object-level markings; no identifier appears twice (the collected list is
passed through a set, so no ordering is guaranteed). -/
theorem get_markings_set_semantics (object_marks : List MarkingId)
    (granular_marks : Selectors → Bool → Bool → List MarkingId)
    (sel : Selectors) (inherited descendants : Bool) :
    (get_markings object_marks granular_marks (some sel) inherited
      descendants).Nodup ∧
    ∀ x, (x ∈ get_markings object_marks granular_marks (some sel) inherited
        descendants ↔
      (x ∈ granular_marks sel inherited descendants ∨
        (inherited = true ∧ x ∈ object_marks))) := by
  constructor
  · exact List.nodup_dedup _
  · intro x
    unfold get_markings
    rw [List.mem_dedup]
    cases inherited <;> simp

/-! ## Idempotence of the canonicalization pipeline (C8)

The development below establishes that running the full pipeline on a
canonical form it already produced returns the identical tree with a false
changed flag. -/

theorem canonicalizeComparisonList_mem :
    ∀ (cs : List CompE) (x : CompE), x ∈ canonicalizeComparisonList cs →
      ∃ y ∈ cs, x = canonicalizeComparison y
  | [], x, h => by rw [canonicalizeComparisonList] at h; exact absurd h (by simp)
  | c :: cs, x, h => by
    rw [canonicalizeComparisonList] at h
    rcases List.mem_cons.1 h with rfl | h2
    · exact ⟨c, by simp, rfl⟩
    · obtain ⟨y, hy, hxy⟩ := canonicalizeComparisonList_mem cs x h2
      exact ⟨y, by simp [hy], hxy⟩

theorem canonicalizeComparisonList_fixed :
    ∀ cs : List CompE, (∀ x ∈ cs, canonicalizeComparison x = x) →
      canonicalizeComparisonList cs = cs
  | [], _ => rfl
  | c :: cs, h => by
    rw [canonicalizeComparisonList, h c (by simp),
      canonicalizeComparisonList_fixed cs (fun x hx => h x (by simp [hx]))]

theorem normalizeTest_idem (p : String) (o : CompOp) (v : CompValue)
    (n : Bool) :
    canonicalizeComparison (normalizeTest p o v n) = normalizeTest p o v n := by
  unfold normalizeTest
  cases n with
  | false => simp [canonicalizeComparison, normalizeTest]
  | true =>
    cases hd : compOpDual o with
    | some d =>
      simp only [if_pos rfl]
      cases o <;> simp_all [compOpDual, canonicalizeComparison, normalizeTest]
    | none =>
      simp only [if_pos rfl]
      simp [canonicalizeComparison, normalizeTest, hd]

theorem sorted_dedupeAdj_of_sorted {α : Type} [DecidableEq α]
    {r : α → α → Prop} {l : List α} (h : List.Sorted r l) :
    List.Sorted r (dedupeAdj l) :=
  List.Pairwise.sublist (dedupeAdj_sublist l) h

theorem canonicalizeComparison_idem :
    ∀ e : CompE,
      canonicalizeComparison (canonicalizeComparison e) =
        canonicalizeComparison e
  | .test p o v n => by
    rw [show canonicalizeComparison (.test p o v n) = normalizeTest p o v n
      from rfl]
    exact normalizeTest_idem p o v n
  | .comp op cs => by
    have hfix : ∀ x ∈ dedupeAdj (List.insertionSort compLe
        (canonicalizeComparisonList cs)), canonicalizeComparison x = x := by
      intro x hx
      have hx2 := (dedupeAdj_sublist _).mem hx
      have hx3 := (List.perm_insertionSort compLe
        (canonicalizeComparisonList cs)).mem_iff.1 hx2
      obtain ⟨y, hy, rfl⟩ := canonicalizeComparisonList_mem cs x hx3
      exact canonicalizeComparison_idem y
    have hsorted : List.Sorted compLe (dedupeAdj (List.insertionSort compLe
        (canonicalizeComparisonList cs))) :=
      sorted_dedupeAdj_of_sorted (List.sorted_insertionSort compLe _)
    have hchain : List.Chain' (· ≠ ·) (dedupeAdj (List.insertionSort compLe
        (canonicalizeComparisonList cs))) := dedupeAdj_chain_ne _
    rw [show canonicalizeComparison (.comp op cs) =
      (match dedupeAdj (List.insertionSort compLe
          (canonicalizeComparisonList cs)) with
        | [x] => x
        | l => .comp op l) from rfl]
    rcases hdd : dedupeAdj (List.insertionSort compLe
        (canonicalizeComparisonList cs)) with _ | ⟨x, _ | ⟨y, t⟩⟩
    · show canonicalizeComparison (.comp op []) = .comp op []
      rw [canonicalizeComparison, canonicalizeComparisonList]
      rfl
    · exact hfix x (by rw [hdd]; simp)
    · show canonicalizeComparison (.comp op (x :: y :: t)) =
        .comp op (x :: y :: t)
      rw [canonicalizeComparison,
        canonicalizeComparisonList_fixed (x :: y :: t)
          (fun z hz => hfix z (by rw [hdd]; exact hz)),
        List.Sorted.insertionSort_eq (hdd ▸ hsorted),
        dedupeAdj_eq_self (x :: y :: t) (hdd ▸ hchain)]
termination_by e => sizeOf e
decreasing_by
  simp_wf
  have := List.sizeOf_lt_of_mem hy
  omega

mutual

/-- All comparison expressions at the leaves are canonical (fixed points of
the comparison canonicalizer). -/
def leavesCanonical : Obs → Prop
  | .obs c _ => canonicalizeComparison c = c
  | .compound _ cs => leavesCanonicalList cs

def leavesCanonicalList : List Obs → Prop
  | [] => True
  | c :: cs => leavesCanonical c ∧ leavesCanonicalList cs

end

theorem leavesCanonicalList_iff :
    ∀ l : List Obs, leavesCanonicalList l ↔ ∀ x ∈ l, leavesCanonical x
  | [] => by simp [leavesCanonicalList]
  | c :: cs => by
    rw [leavesCanonicalList, leavesCanonicalList_iff cs]
    simp

mutual

/-- Parser well-formedness invariant (spec section 3): every compound node
has at least two children. -/
def wellFormed : Obs → Bool
  | .obs _ _ => true
  | .compound _ cs => decide (2 ≤ cs.length) && wellFormedList cs

def wellFormedList : List Obs → Bool
  | [] => true
  | c :: cs => wellFormed c && wellFormedList cs

end

theorem wellFormedList_iff :
    ∀ l : List Obs, wellFormedList l = true ↔ ∀ x ∈ l, wellFormed x = true
  | [] => by simp [wellFormedList]
  | c :: cs => by
    rw [wellFormedList]
    simp [wellFormedList_iff cs]

/-- The node is not a compound with the given operator. -/
def notSameOp (op : BoolOp) : Obs → Prop
  | .compound op2 _ => op2 ≠ op
  | _ => True

mutual

/-- Fully flattened well-formed trees: every compound has at least two
children, none of which repeats the parent operator. -/
def flatTree : Obs → Prop
  | .obs _ _ => True
  | .compound op cs => 2 ≤ cs.length ∧ flatForest op cs

def flatForest : BoolOp → List Obs → Prop
  | _, [] => True
  | op, c :: cs => (notSameOp op c ∧ flatTree c) ∧ flatForest op cs

end

theorem flatForest_iff :
    ∀ (op : BoolOp) (l : List Obs),
      flatForest op l ↔ ∀ x ∈ l, notSameOp op x ∧ flatTree x
  | _, [] => by simp [flatForest]
  | op, c :: cs => by
    rw [flatForest, flatForest_iff op cs]
    simp

def isLeafObs : Obs → Bool
  | .obs _ _ => true
  | _ => false

/-- A DNF clause: a leaf, or an AND of at least two leaves. -/
def goodClause : Obs → Bool
  | .obs _ _ => true
  | .compound .and cs => decide (2 ≤ cs.length) && cs.all isLeafObs
  | .compound .or _ => false

/-- Disjunctive normal form: a clause, or an OR of at least two clauses. -/
def isDNF : Obs → Bool
  | .compound .or cs => decide (2 ≤ cs.length) && cs.all goodClause
  | t => goodClause t

theorem exists_min_sizeOf :
    ∀ l : List Obs, l ≠ [] → ∃ m ∈ l, ∀ x ∈ l, sizeOf m ≤ sizeOf x
  | [], h => absurd rfl h
  | [a], _ => ⟨a, by simp, by simp⟩
  | a :: b :: t, _ => by
    obtain ⟨m, hm, hmin⟩ := exists_min_sizeOf (b :: t) (by simp)
    by_cases hle : sizeOf a ≤ sizeOf m
    · exact ⟨a, by simp, by
        intro x hx
        rcases List.mem_cons.1 hx with rfl | hx2
        · exact le_refl _
        · exact hle.trans (hmin x hx2)⟩
    · exact ⟨m, by simp [hm], by
        intro x hx
        rcases List.mem_cons.1 hx with rfl | hx2
        · exact le_of_lt (lt_of_not_le hle)
        · exact hmin x hx2⟩

theorem collapseObs_eq (op : BoolOp) :
    ∀ l : List Obs, collapseObs op l = .compound op l ∨ ∃ x, l = [x] ∧
      collapseObs op l = x
  | [] => Or.inl rfl
  | [x] => Or.inr ⟨x, rfl, rfl⟩
  | _ :: _ :: _ => Or.inl rfl

theorem leavesCanonical_collapseObs (op : BoolOp) (l : List Obs)
    (h : ∀ x ∈ l, leavesCanonical x) : leavesCanonical (collapseObs op l) := by
  rcases collapseObs_eq op l with hc | ⟨x, rfl, hc⟩
  · rw [hc, leavesCanonical]
    exact (leavesCanonicalList_iff l).2 h
  · rw [hc]
    exact h x (by simp)

theorem canonicalizeComparisonsList_mem :
    ∀ (cs : List Obs) (x : Obs), x ∈ canonicalizeComparisonsList cs →
      ∃ y ∈ cs, x = canonicalizeComparisonsPass y
  | [], x, h => by rw [canonicalizeComparisonsList] at h; exact absurd h (by simp)
  | c :: cs, x, h => by
    rw [canonicalizeComparisonsList] at h
    rcases List.mem_cons.1 h with rfl | h2
    · exact ⟨c, by simp, rfl⟩
    · obtain ⟨y, hy, hxy⟩ := canonicalizeComparisonsList_mem cs x h2
      exact ⟨y, by simp [hy], hxy⟩

theorem orderDedupeList_mem :
    ∀ (cs : List Obs) (x : Obs), x ∈ orderDedupeList cs →
      ∃ y ∈ cs, x = orderDedupeObs y
  | [], x, h => by rw [orderDedupeList] at h; exact absurd h (by simp)
  | c :: cs, x, h => by
    rw [orderDedupeList] at h
    rcases List.mem_cons.1 h with rfl | h2
    · exact ⟨c, by simp, rfl⟩
    · obtain ⟨y, hy, hxy⟩ := orderDedupeList_mem cs x h2
      exact ⟨y, by simp [hy], hxy⟩

theorem absorbList_mem :
    ∀ (cs : List Obs) (x : Obs), x ∈ absorbList cs →
      ∃ y ∈ cs, x = absorbObs y
  | [], x, h => by rw [absorbList] at h; exact absurd h (by simp)
  | c :: cs, x, h => by
    rw [absorbList] at h
    rcases List.mem_cons.1 h with rfl | h2
    · exact ⟨c, by simp, rfl⟩
    · obtain ⟨y, hy, hxy⟩ := absorbList_mem cs x h2
      exact ⟨y, by simp [hy], hxy⟩

theorem dnfList_mem :
    ∀ (cs : List Obs) (x : Obs), x ∈ dnfList cs → ∃ y ∈ cs, x = dnfObs y
  | [], x, h => by rw [dnfList] at h; exact absurd h (by simp)
  | c :: cs, x, h => by
    rw [dnfList] at h
    rcases List.mem_cons.1 h with rfl | h2
    · exact ⟨c, by simp, rfl⟩
    · obtain ⟨y, hy, hxy⟩ := dnfList_mem cs x h2
      exact ⟨y, by simp [hy], hxy⟩

theorem canonicalizeComparisonsList_length :
    ∀ cs : List Obs, (canonicalizeComparisonsList cs).length = cs.length
  | [] => rfl
  | c :: cs => by
    rw [canonicalizeComparisonsList]
    simp [canonicalizeComparisonsList_length cs]

theorem orderDedupeList_length :
    ∀ cs : List Obs, (orderDedupeList cs).length = cs.length
  | [] => rfl
  | c :: cs => by
    rw [orderDedupeList]
    simp [orderDedupeList_length cs]

theorem absorbList_length :
    ∀ cs : List Obs, (absorbList cs).length = cs.length
  | [] => rfl
  | c :: cs => by
    rw [absorbList]
    simp [absorbList_length cs]

theorem dnfList_length : ∀ cs : List Obs, (dnfList cs).length = cs.length
  | [] => rfl
  | c :: cs => by
    rw [dnfList]
    simp [dnfList_length cs]

theorem cartesianProduct_mem_flat {α : Type} :
    ∀ (ls : List (List α)) (c : List α), c ∈ cartesianProduct ls →
      ∀ x ∈ c, ∃ l ∈ ls, x ∈ l
  | [], c, hc, x, hx => by
    rw [cartesianProduct] at hc
    simp at hc
    subst hc
    exact absurd hx (by simp)
  | l :: ls, c, hc, x, hx => by
    rw [cartesianProduct] at hc
    obtain ⟨y, hy, hc2⟩ := List.mem_flatMap.1 hc
    obtain ⟨c2, hc2m, rfl⟩ := List.mem_map.1 hc2
    rcases List.mem_cons.1 hx with rfl | hx2
    · exact ⟨l, by simp, hy⟩
    · obtain ⟨l2, hl2, hxl2⟩ := cartesianProduct_mem_flat ls c2 hc2m x hx2
      exact ⟨l2, by simp [hl2], hxl2⟩

theorem cartesianProduct_mem_length {α : Type} :
    ∀ (ls : List (List α)) (c : List α), c ∈ cartesianProduct ls →
      c.length = ls.length
  | [], c, hc => by
    rw [cartesianProduct] at hc
    simp at hc
    simp [hc]
  | l :: ls, c, hc => by
    rw [cartesianProduct] at hc
    obtain ⟨y, _, hc2⟩ := List.mem_flatMap.1 hc
    obtain ⟨c2, hc2m, rfl⟩ := List.mem_map.1 hc2
    simp [cartesianProduct_mem_length ls c2 hc2m]

theorem cartesianProduct_ne_nil {α : Type} :
    ∀ ls : List (List α), (∀ l ∈ ls, l ≠ []) → cartesianProduct ls ≠ []
  | [], _ => by rw [cartesianProduct]; simp
  | l :: ls, h => by
    rw [cartesianProduct]
    obtain ⟨x, hx⟩ := List.exists_mem_of_ne_nil l (h l (by simp))
    obtain ⟨c, hc⟩ := List.exists_mem_of_ne_nil (cartesianProduct ls)
      (cartesianProduct_ne_nil ls (fun y hy => h y (by simp [hy])))
    exact List.ne_nil_of_mem
      (List.mem_flatMap.2 ⟨x, hx, List.mem_map.2 ⟨c, hc, rfl⟩⟩)

theorem leavesCanonical_clauses (u : Obs) (h : leavesCanonical u) :
    ∀ x ∈ clauses u, leavesCanonical x := by
  intro x hx
  match u with
  | .obs c q =>
    obtain rfl := List.mem_singleton.1 hx
    exact h
  | .compound .and cs =>
    obtain rfl := List.mem_singleton.1 hx
    exact h
  | .compound .or cs =>
    rw [leavesCanonical] at h
    exact (leavesCanonicalList_iff cs).1 h x hx

theorem leavesCanonical_andParts (u : Obs) (h : leavesCanonical u) :
    ∀ x ∈ andParts u, leavesCanonical x := by
  intro x hx
  match u with
  | .obs c q =>
    obtain rfl := List.mem_singleton.1 hx
    exact h
  | .compound .or cs =>
    obtain rfl := List.mem_singleton.1 hx
    exact h
  | .compound .and cs =>
    rw [leavesCanonical] at h
    exact (leavesCanonicalList_iff cs).1 h x hx

theorem leavesCanonical_pass :
    ∀ t : Obs, leavesCanonical (canonicalizeComparisonsPass t)
  | .obs c q => by
    rw [canonicalizeComparisonsPass, leavesCanonical]
    exact canonicalizeComparison_idem c
  | .compound op cs => by
    rw [canonicalizeComparisonsPass, leavesCanonical]
    rw [leavesCanonicalList_iff]
    intro x hx
    obtain ⟨y, hy, rfl⟩ := canonicalizeComparisonsList_mem cs x hx
    exact leavesCanonical_pass y
termination_by t => sizeOf t
decreasing_by
  simp_wf
  have := List.sizeOf_lt_of_mem hy
  omega

theorem canonicalizeComparisonsList_fixed :
    ∀ cs : List Obs, (∀ x ∈ cs, canonicalizeComparisonsPass x = x) →
      canonicalizeComparisonsList cs = cs
  | [], _ => rfl
  | c :: cs, h => by
    rw [canonicalizeComparisonsList, h c (by simp),
      canonicalizeComparisonsList_fixed cs (fun x hx => h x (by simp [hx]))]

theorem pass_fixed_of_leavesCanonical :
    ∀ t : Obs, leavesCanonical t → canonicalizeComparisonsPass t = t
  | .obs c q, h => by
    rw [leavesCanonical] at h
    rw [canonicalizeComparisonsPass, h]
  | .compound op cs, h => by
    rw [leavesCanonical] at h
    rw [canonicalizeComparisonsPass,
      canonicalizeComparisonsList_fixed cs (fun x hx =>
        pass_fixed_of_leavesCanonical x
          ((leavesCanonicalList_iff cs).1 h x hx))]
termination_by t => sizeOf t
decreasing_by
  simp_wf
  have := List.sizeOf_lt_of_mem hx
  omega

mutual

theorem leavesCanonical_flatten :
    ∀ t : Obs, leavesCanonical t → leavesCanonical (flattenObs t)
  | .obs c q, h => by rw [flattenObs]; exact h
  | .compound op cs, h => by
    rw [flattenObs]
    apply leavesCanonical_collapseObs
    rw [leavesCanonical] at h
    exact leavesCanonical_flattenChildren op cs
      ((leavesCanonicalList_iff cs).1 h)

theorem leavesCanonical_flattenChildren (op : BoolOp) :
    ∀ cs : List Obs, (∀ x ∈ cs, leavesCanonical x) →
      ∀ x ∈ flattenChildren op cs, leavesCanonical x
  | [], _, x, hx => by
    rw [flattenChildren] at hx
    exact absurd hx (by simp)
  | c :: rest, h, x, hx => by
    rw [flattenChildren] at hx
    rcases List.mem_append.1 hx with h1 | h2
    · have hfc := leavesCanonical_flatten c (h c (by simp))
      cases hfo : flattenObs c with
      | obs c2 q2 =>
        rw [hfo] at h1 hfc
        obtain rfl := List.mem_singleton.1 h1
        exact hfc
      | compound op2 gs =>
        rw [hfo] at h1 hfc
        by_cases hop : op2 = op
        · simp only [if_pos hop] at h1
          rw [leavesCanonical] at hfc
          exact (leavesCanonicalList_iff gs).1 hfc x h1
        · simp only [if_neg hop] at h1
          obtain rfl := List.mem_singleton.1 h1
          exact hfc
    · exact leavesCanonical_flattenChildren op rest
        (fun y hy => h y (by simp [hy])) x h2

end

theorem leavesCanonical_orderDedupe :
    ∀ t : Obs, leavesCanonical t → leavesCanonical (orderDedupeObs t)
  | .obs c q, h => by rw [orderDedupeObs]; exact h
  | .compound op cs, h => by
    rw [orderDedupeObs]
    apply leavesCanonical_collapseObs
    intro x hx
    have hx2 := (dedupeAdj_sublist _).mem hx
    have hx3 := (List.perm_insertionSort obsLe (orderDedupeList cs)).mem_iff.1
      hx2
    obtain ⟨y, hy, rfl⟩ := orderDedupeList_mem cs x hx3
    rw [leavesCanonical] at h
    exact leavesCanonical_orderDedupe y ((leavesCanonicalList_iff cs).1 h y hy)
termination_by t => sizeOf t
decreasing_by
  simp_wf
  have := List.sizeOf_lt_of_mem hy
  omega

theorem leavesCanonical_absorb :
    ∀ t : Obs, leavesCanonical t → leavesCanonical (absorbObs t)
  | .obs c q, h => by rw [absorbObs]; exact h
  | .compound op cs, h => by
    rw [absorbObs]
    apply leavesCanonical_collapseObs
    intro x hx
    have hx2 := List.mem_of_mem_filter hx
    obtain ⟨y, hy, rfl⟩ := absorbList_mem cs x hx2
    rw [leavesCanonical] at h
    exact leavesCanonical_absorb y ((leavesCanonicalList_iff cs).1 h y hy)
termination_by t => sizeOf t
decreasing_by
  simp_wf
  have := List.sizeOf_lt_of_mem hy
  omega

theorem leavesCanonical_dnf :
    ∀ t : Obs, leavesCanonical t → leavesCanonical (dnfObs t)
  | .obs c q, h => by rw [dnfObs]; exact h
  | .compound .or cs, h => by
    rw [dnfObs]
    apply leavesCanonical_collapseObs
    intro x hx
    obtain ⟨u, hu, hxu⟩ := List.mem_flatMap.1 hx
    obtain ⟨y, hy, rfl⟩ := dnfList_mem cs u hu
    rw [leavesCanonical] at h
    exact leavesCanonical_clauses _
      (leavesCanonical_dnf y ((leavesCanonicalList_iff cs).1 h y hy)) x hxu
  | .compound .and cs, h => by
    rw [dnfObs]
    rw [leavesCanonical] at h
    split
    · apply leavesCanonical_collapseObs
      intro x hx
      obtain ⟨combo, hcombo, rfl⟩ := List.mem_map.1 hx
      apply leavesCanonical_collapseObs
      intro z hz
      obtain ⟨u, hu, hzu⟩ := List.mem_flatMap.1 hz
      obtain ⟨l, hl, hul⟩ := cartesianProduct_mem_flat _ combo hcombo u hu
      obtain ⟨v, hv, rfl⟩ := List.mem_map.1 hl
      obtain ⟨y, hy, rfl⟩ := dnfList_mem cs v hv
      have hlv := leavesCanonical_dnf y ((leavesCanonicalList_iff cs).1 h y hy)
      exact leavesCanonical_andParts u (leavesCanonical_clauses _ hlv u hul)
        z hzu
    · rw [leavesCanonical, leavesCanonicalList_iff]
      intro x hx
      obtain ⟨y, hy, rfl⟩ := dnfList_mem cs x hx
      exact leavesCanonical_dnf y ((leavesCanonicalList_iff cs).1 h y hy)
termination_by t => sizeOf t
decreasing_by
  all_goals simp_wf
  all_goals have := List.sizeOf_lt_of_mem hy
  all_goals omega

mutual

theorem flattenObs_flat :
    ∀ t : Obs, wellFormed t = true → flatTree (flattenObs t)
  | .obs c q, _ => by rw [flattenObs, flatTree]; trivial
  | .compound op cs, h => by
    rw [flattenObs]
    rw [wellFormed] at h
    simp only [Bool.and_eq_true, decide_eq_true_eq] at h
    have hspec := flattenChildren_spec op cs h.2
    rcases collapseObs_eq op (flattenChildren op cs) with hc | ⟨x, hxl, hc⟩
    · rw [hc, flatTree]
      refine ⟨le_trans h.1 hspec.2, ?_⟩
      rw [flatForest_iff]
      exact hspec.1
    · have hlen : (flattenChildren op cs).length = 1 := by simp [hxl]
      omega

theorem flattenChildren_spec (op : BoolOp) :
    ∀ cs : List Obs, wellFormedList cs = true →
      (∀ x ∈ flattenChildren op cs, notSameOp op x ∧ flatTree x) ∧
        cs.length ≤ (flattenChildren op cs).length
  | [], _ => ⟨by rw [flattenChildren]; simp, by rw [flattenChildren]⟩
  | c :: rest, h => by
    rw [wellFormedList] at h
    simp only [Bool.and_eq_true] at h
    have hc := flattenObs_flat c h.1
    have hrest := flattenChildren_spec op rest h.2
    rw [flattenChildren]
    constructor
    · intro x hx
      rcases List.mem_append.1 hx with h1 | h2
      · cases hfo : flattenObs c with
        | obs c2 q2 =>
          rw [hfo] at h1 hc
          obtain rfl := List.mem_singleton.1 h1
          exact ⟨trivial, hc⟩
        | compound op2 gs =>
          rw [hfo] at h1 hc
          by_cases hop : op2 = op
          · simp only [if_pos hop] at h1
            rw [flatTree] at hc
            have hx2 := (flatForest_iff op2 gs).1 hc.2 x h1
            rw [hop] at hx2
            exact hx2
          · simp only [if_neg hop] at h1
            obtain rfl := List.mem_singleton.1 h1
            exact ⟨hop, hc⟩
      · exact hrest.1 x h2
    · cases hfo : flattenObs c with
      | obs c2 q2 =>
        have := hrest.2
        simp only [List.length_append, List.length_cons, List.length_nil]
        omega
      | compound op2 gs =>
        rw [hfo] at hc
        have := hrest.2
        by_cases hop : op2 = op
        · simp only [if_pos hop, List.length_append, List.length_cons]
          rw [flatTree] at hc
          omega
        · simp only [if_neg hop, List.length_append, List.length_cons,
            List.length_nil]
          omega

end

theorem flatTree_wellFormed : ∀ t : Obs, flatTree t → wellFormed t = true
  | .obs _ _, _ => rfl
  | .compound op cs, h => by
    rw [flatTree] at h
    rw [wellFormed]
    simp only [Bool.and_eq_true, decide_eq_true_eq]
    exact ⟨h.1, (wellFormedList_iff cs).2 (fun x hx => flatTree_wellFormed x
      ((flatForest_iff op cs).1 h.2 x hx).2)⟩
termination_by t => sizeOf t
decreasing_by
  simp_wf
  have := List.sizeOf_lt_of_mem hx
  omega

theorem wellFormed_flatten (t : Obs) (h : wellFormed t = true) :
    wellFormed (flattenObs t) = true :=
  flatTree_wellFormed _ (flattenObs_flat t h)

theorem wellFormed_pass :
    ∀ t : Obs, wellFormed t = true →
      wellFormed (canonicalizeComparisonsPass t) = true
  | .obs _ _, _ => rfl
  | .compound op cs, h => by
    rw [wellFormed] at h
    simp only [Bool.and_eq_true, decide_eq_true_eq] at h
    rw [canonicalizeComparisonsPass, wellFormed]
    simp only [Bool.and_eq_true, decide_eq_true_eq]
    constructor
    · rw [canonicalizeComparisonsList_length]
      exact h.1
    · rw [wellFormedList_iff]
      intro x hx
      obtain ⟨y, hy, rfl⟩ := canonicalizeComparisonsList_mem cs x hx
      exact wellFormed_pass y ((wellFormedList_iff cs).1 h.2 y hy)
termination_by t => sizeOf t
decreasing_by
  simp_wf
  have := List.sizeOf_lt_of_mem hy
  omega

theorem wellFormed_orderDedupe :
    ∀ t : Obs, wellFormed t = true → wellFormed (orderDedupeObs t) = true
  | .obs _ _, _ => rfl
  | .compound op cs, h => by
    rw [wellFormed] at h
    simp only [Bool.and_eq_true, decide_eq_true_eq] at h
    rw [orderDedupeObs]
    have helem : ∀ x ∈ dedupeAdj (List.insertionSort obsLe
        (orderDedupeList cs)), wellFormed x = true := by
      intro x hx
      have hx2 := (dedupeAdj_sublist _).mem hx
      have hx3 := (List.perm_insertionSort obsLe (orderDedupeList cs)).mem_iff.1
        hx2
      obtain ⟨y, hy, rfl⟩ := orderDedupeList_mem cs x hx3
      exact wellFormed_orderDedupe y ((wellFormedList_iff cs).1 h.2 y hy)
    have hne : dedupeAdj (List.insertionSort obsLe (orderDedupeList cs)) ≠ []
        := by
      apply dedupeAdj_ne_nil
      intro hnil
      have hlen := congrArg List.length hnil
      rw [(List.perm_insertionSort obsLe (orderDedupeList cs)).length_eq,
        orderDedupeList_length] at hlen
      simp only [List.length_nil] at hlen
      omega
    rcases hdd : dedupeAdj (List.insertionSort obsLe (orderDedupeList cs))
      with _ | ⟨x, _ | ⟨y, t2⟩⟩
    · exact absurd hdd hne
    · exact helem x (by rw [hdd]; simp)
    · show wellFormed (collapseObs op (x :: y :: t2)) = true
      rw [show collapseObs op (x :: y :: t2) =
        .compound op (x :: y :: t2) from rfl]
      rw [wellFormed]
      simp only [Bool.and_eq_true, decide_eq_true_eq]
      refine ⟨by simp, ?_⟩
      rw [wellFormedList_iff]
      intro z hz
      exact helem z (by rw [hdd]; exact hz)
termination_by t => sizeOf t
decreasing_by
  simp_wf
  have := List.sizeOf_lt_of_mem hy
  omega

theorem absorb_keep_ne_nil (op : BoolOp) (l : List Obs) (hne : l ≠ []) :
    l.filter (fun c => !(absorbedBy op l c)) ≠ [] := by
  obtain ⟨m, hm, hmin⟩ := exists_min_sizeOf l hne
  have hnab : absorbedBy op l m = false := by
    cases m with
    | obs c q => rfl
    | compound op2 gs =>
      rw [absorbedBy]
      simp only [Bool.and_eq_false_iff]
      by_contra hcon
      push_neg at hcon
      obtain ⟨_, hany⟩ := hcon
      rw [Bool.ne_false_iff, List.any_eq_true] at hany
      obtain ⟨s, hs, hsm⟩ := hany
      simp only [Bool.and_eq_true, List.any_eq_true] at hsm
      obtain ⟨_, g, hg, hsg⟩ := hsm
      rw [ordering_beq_eq] at hsg
      obtain rfl := (observation_expression_cmp_eq_iff s g).1 hsg
      have h1 := List.sizeOf_lt_of_mem hg
      have h2 := hmin s hs
      simp only [ObservationExpression.compound.sizeOf_spec] at h2
      omega
  exact List.ne_nil_of_mem (List.mem_filter.2 ⟨hm, by rw [hnab]; rfl⟩)

theorem wellFormed_absorb :
    ∀ t : Obs, wellFormed t = true → wellFormed (absorbObs t) = true
  | .obs _ _, _ => rfl
  | .compound op cs, h => by
    rw [wellFormed] at h
    simp only [Bool.and_eq_true, decide_eq_true_eq] at h
    rw [absorbObs]
    have helem : ∀ x ∈ (absorbList cs).filter
        (fun c => !(absorbedBy op (absorbList cs) c)), wellFormed x = true := by
      intro x hx
      obtain ⟨y, hy, rfl⟩ := absorbList_mem cs x (List.mem_of_mem_filter hx)
      exact wellFormed_absorb y ((wellFormedList_iff cs).1 h.2 y hy)
    have hne := absorb_keep_ne_nil op (absorbList cs) (by
      intro hnil
      have hlen := congrArg List.length hnil
      rw [absorbList_length] at hlen
      simp only [List.length_nil] at hlen
      omega)
    rcases hdd : (absorbList cs).filter
        (fun c => !(absorbedBy op (absorbList cs) c))
      with _ | ⟨x, _ | ⟨y, t2⟩⟩
    · exact absurd hdd hne
    · exact helem x (by rw [hdd]; simp)
    · show wellFormed (collapseObs op (x :: y :: t2)) = true
      rw [show collapseObs op (x :: y :: t2) =
        .compound op (x :: y :: t2) from rfl]
      rw [wellFormed]
      simp only [Bool.and_eq_true, decide_eq_true_eq]
      refine ⟨by simp, ?_⟩
      rw [wellFormedList_iff]
      intro z hz
      exact helem z (by rw [hdd]; exact hz)
termination_by t => sizeOf t
decreasing_by
  simp_wf
  have := List.sizeOf_lt_of_mem hy
  omega

theorem collapseObs_of_two_le (op : BoolOp) (l : List Obs)
    (h : 2 ≤ l.length) : collapseObs op l = .compound op l := by
  rcases collapseObs_eq op l with hc | ⟨x, rfl, _⟩
  · exact hc
  · simp at h

theorem isLeafObs_shape (x : Obs) (h : isLeafObs x = true) :
    ∃ c q, x = .obs c q := by
  cases x with
  | obs c q => exact ⟨c, q, rfl⟩
  | compound op cs => exact Bool.noConfusion h

theorem isOrNode_shape (u : Obs) (h : isOrNode u = true) :
    u = .compound .or (clauses u) := by
  cases u with
  | obs c q => exact Bool.noConfusion h
  | compound op cs =>
    cases op with
    | or => rfl
    | and => exact Bool.noConfusion h

theorem goodClause_isDNF (x : Obs) (h : goodClause x = true) :
    isDNF x = true := by
  cases x with
  | obs c q => rfl
  | compound op cs =>
    cases op with
    | and => exact h
    | or => exact Bool.noConfusion h

theorem goodClause_not_or (x : Obs) (h : goodClause x = true) :
    isOrNode x = false := by
  cases x with
  | obs c q => rfl
  | compound op cs =>
    cases op with
    | and => rfl
    | or => exact Bool.noConfusion h

theorem goodClause_clauses (x : Obs) (h : goodClause x = true) :
    clauses x = [x] := by
  cases x with
  | obs c q => rfl
  | compound op cs =>
    cases op with
    | and => rfl
    | or => exact Bool.noConfusion h

theorem goodClause_andParts (x : Obs) (h : goodClause x = true) :
    (∀ y ∈ andParts x, isLeafObs y = true) ∧ 1 ≤ (andParts x).length := by
  cases x with
  | obs c q =>
    exact ⟨fun y hy => by obtain rfl := List.mem_singleton.1 hy; rfl,
      le_refl 1⟩
  | compound op cs =>
    cases op with
    | and =>
      rw [goodClause] at h
      simp only [Bool.and_eq_true, decide_eq_true_eq, List.all_eq_true] at h
      exact ⟨fun y hy => h.2 y hy, by show 1 ≤ cs.length; omega⟩
    | or => exact Bool.noConfusion h

theorem flatMap_length_ge {α β : Type} (f : α → List β) :
    ∀ l : List α, (∀ x ∈ l, 1 ≤ (f x).length) →
      l.length ≤ (l.flatMap f).length
  | [], _ => by simp
  | a :: l, h => by
    rw [List.flatMap_cons, List.length_append, List.length_cons]
    have h1 := h a (by simp)
    have h2 := flatMap_length_ge f l (fun x hx => h x (by simp [hx]))
    omega

theorem flatMap_clauses_fixed :
    ∀ cs : List Obs, (∀ x ∈ cs, clauses x = [x]) → cs.flatMap clauses = cs
  | [], _ => rfl
  | c :: cs, h => by
    rw [List.flatMap_cons, h c (by simp),
      flatMap_clauses_fixed cs (fun x hx => h x (by simp [hx]))]
    rfl

theorem isDNF_mkOr (L : List Obs) (h : ∀ x ∈ L, goodClause x = true)
    (hne : L ≠ []) : isDNF (mkOr L) = true := by
  rcases L with _ | ⟨x, _ | ⟨y, t⟩⟩
  · exact absurd rfl hne
  · exact goodClause_isDNF x (h x (by simp))
  · rw [mkOr, collapseObs_of_two_le .or _ (by simp), isDNF]
    simp only [Bool.and_eq_true, decide_eq_true_eq, List.all_eq_true]
    exact ⟨by simp, h⟩

theorem clauses_mkOr (L : List Obs) (h : ∀ x ∈ L, goodClause x = true)
    (hne : L ≠ []) : clauses (mkOr L) = L := by
  rcases L with _ | ⟨x, _ | ⟨y, t⟩⟩
  · exact absurd rfl hne
  · rw [mkOr, collapseObs]
    exact goodClause_clauses x (h x (by simp))
  · rw [mkOr, collapseObs_of_two_le .or _ (by simp)]
    rfl

theorem isLeafObs_flatten (x : Obs) (h : isLeafObs x = true) :
    flattenObs x = x := by
  obtain ⟨c, q, rfl⟩ := isLeafObs_shape x h
  rw [flattenObs]

theorem isLeafObs_orderDedupe (x : Obs) (h : isLeafObs x = true) :
    orderDedupeObs x = x := by
  obtain ⟨c, q, rfl⟩ := isLeafObs_shape x h
  rw [orderDedupeObs]

theorem isLeafObs_absorb (x : Obs) (h : isLeafObs x = true) :
    absorbObs x = x := by
  obtain ⟨c, q, rfl⟩ := isLeafObs_shape x h
  rw [absorbObs]

theorem isLeafObs_dnf (x : Obs) (h : isLeafObs x = true) : dnfObs x = x := by
  obtain ⟨c, q, rfl⟩ := isLeafObs_shape x h
  rw [dnfObs]

theorem isLeafObs_notSameOp (op : BoolOp) (x : Obs)
    (h : isLeafObs x = true) : notSameOp op x := by
  obtain ⟨c, q, rfl⟩ := isLeafObs_shape x h
  trivial

theorem isLeafObs_absorbedBy (op : BoolOp) (l : List Obs) (x : Obs)
    (h : isLeafObs x = true) : absorbedBy op l x = false := by
  obtain ⟨c, q, rfl⟩ := isLeafObs_shape x h
  rfl

theorem isLeafObs_goodClause (x : Obs) (h : isLeafObs x = true) :
    goodClause x = true := by
  obtain ⟨c, q, rfl⟩ := isLeafObs_shape x h
  rfl

theorem isLeafObs_isOrNode (x : Obs) (h : isLeafObs x = true) :
    isOrNode x = false := by
  obtain ⟨c, q, rfl⟩ := isLeafObs_shape x h
  rfl

theorem goodClause_notSameOp_or (x : Obs) (h : goodClause x = true) :
    notSameOp .or x := by
  cases x with
  | obs c q => trivial
  | compound op cs =>
    cases op with
    | and => exact fun hcon => BoolOp.noConfusion hcon
    | or => exact Bool.noConfusion h

theorem orderDedupeList_fixed :
    ∀ cs : List Obs, (∀ x ∈ cs, orderDedupeObs x = x) →
      orderDedupeList cs = cs
  | [], _ => rfl
  | c :: cs, h => by
    rw [orderDedupeList, h c (by simp),
      orderDedupeList_fixed cs (fun x hx => h x (by simp [hx]))]

theorem absorbList_fixed :
    ∀ cs : List Obs, (∀ x ∈ cs, absorbObs x = x) → absorbList cs = cs
  | [], _ => rfl
  | c :: cs, h => by
    rw [absorbList, h c (by simp),
      absorbList_fixed cs (fun x hx => h x (by simp [hx]))]

theorem dnfList_fixed :
    ∀ cs : List Obs, (∀ x ∈ cs, dnfObs x = x) → dnfList cs = cs
  | [], _ => rfl
  | c :: cs, h => by
    rw [dnfList, h c (by simp),
      dnfList_fixed cs (fun x hx => h x (by simp [hx]))]

theorem flattenChildren_fixed (op : BoolOp) :
    ∀ cs : List Obs, (∀ x ∈ cs, flattenObs x = x ∧ notSameOp op x) →
      flattenChildren op cs = cs
  | [], _ => rfl
  | c :: cs, h => by
    rw [flattenChildren,
      flattenChildren_fixed op cs (fun x hx => h x (by simp [hx]))]
    have h1 := (h c (by simp)).1
    have h2 := (h c (by simp)).2
    cases hc : c with
    | obs c2 q2 =>
      rw [hc] at h1
      rw [h1]
      rfl
    | compound op2 gs =>
      rw [hc] at h1 h2
      rw [h1]
      show (if op2 = op then gs else [ObservationExpression.compound op2 gs])
          ++ cs = ObservationExpression.compound op2 gs :: cs
      rw [if_neg h2]
      rfl

theorem goodClause_flatten_fixed :
    ∀ x : Obs, goodClause x = true → flattenObs x = x := by
  intro x h
  cases x with
  | obs c q => rw [flattenObs]
  | compound op cs =>
    cases op with
    | or => exact Bool.noConfusion h
    | and =>
      rw [goodClause] at h
      simp only [Bool.and_eq_true, decide_eq_true_eq, List.all_eq_true] at h
      rw [flattenObs, flattenChildren_fixed .and cs (fun y hy =>
          ⟨isLeafObs_flatten y (h.2 y hy),
            isLeafObs_notSameOp .and y (h.2 y hy)⟩),
        collapseObs_of_two_le .and cs h.1]

theorem isDNF_flatten_fixed (t : Obs) (h : isDNF t = true) :
    flattenObs t = t := by
  cases t with
  | obs c q => rw [flattenObs]
  | compound op cs =>
    cases op with
    | and => exact goodClause_flatten_fixed _ h
    | or =>
      rw [isDNF] at h
      simp only [Bool.and_eq_true, decide_eq_true_eq, List.all_eq_true] at h
      rw [flattenObs, flattenChildren_fixed .or cs (fun y hy =>
          ⟨goodClause_flatten_fixed y (h.2 y hy),
            goodClause_notSameOp_or y (h.2 y hy)⟩),
        collapseObs_of_two_le .or cs h.1]

theorem goodClause_orderDedupe_good (x : Obs) (h : goodClause x = true) :
    goodClause (orderDedupeObs x) = true := by
  cases x with
  | obs c q => rw [orderDedupeObs]; rfl
  | compound op cs =>
    cases op with
    | or => exact Bool.noConfusion h
    | and =>
      rw [goodClause] at h
      simp only [Bool.and_eq_true, decide_eq_true_eq, List.all_eq_true] at h
      rw [orderDedupeObs, orderDedupeList_fixed cs (fun y hy =>
        isLeafObs_orderDedupe y (h.2 y hy))]
      have helem : ∀ z ∈ dedupeAdj (List.insertionSort obsLe cs),
          isLeafObs z = true := by
        intro z hz
        exact h.2 z ((List.perm_insertionSort obsLe cs).mem_iff.1
          ((dedupeAdj_sublist _).mem hz))
      have hne : dedupeAdj (List.insertionSort obsLe cs) ≠ [] := by
        apply dedupeAdj_ne_nil
        intro hnil
        have hlen := congrArg List.length hnil
        rw [(List.perm_insertionSort obsLe cs).length_eq] at hlen
        simp only [List.length_nil] at hlen
        omega
      rcases hdd : dedupeAdj (List.insertionSort obsLe cs)
        with _ | ⟨z, _ | ⟨w, t2⟩⟩
      · exact absurd hdd hne
      · rw [collapseObs]
        exact isLeafObs_goodClause z (helem z (by rw [hdd]; simp))
      · rw [collapseObs_of_two_le .and _ (by simp), goodClause]
        simp only [Bool.and_eq_true, decide_eq_true_eq, List.all_eq_true]
        exact ⟨by simp, fun y hy => helem y (by rw [hdd]; exact hy)⟩

theorem isDNF_orderDedupe (t : Obs) (h : isDNF t = true) :
    isDNF (orderDedupeObs t) = true := by
  cases t with
  | obs c q => rw [orderDedupeObs]; exact h
  | compound op cs =>
    cases op with
    | and => exact goodClause_isDNF _ (goodClause_orderDedupe_good _ h)
    | or =>
      rw [isDNF] at h
      simp only [Bool.and_eq_true, decide_eq_true_eq, List.all_eq_true] at h
      rw [orderDedupeObs]
      have helem : ∀ z ∈ dedupeAdj (List.insertionSort obsLe
          (orderDedupeList cs)), goodClause z = true := by
        intro z hz
        obtain ⟨y, hy, rfl⟩ := orderDedupeList_mem cs z
          ((List.perm_insertionSort obsLe _).mem_iff.1
            ((dedupeAdj_sublist _).mem hz))
        exact goodClause_orderDedupe_good y (h.2 y hy)
      have hne : dedupeAdj (List.insertionSort obsLe (orderDedupeList cs))
          ≠ [] := by
        apply dedupeAdj_ne_nil
        intro hnil
        have hlen := congrArg List.length hnil
        rw [(List.perm_insertionSort obsLe _).length_eq,
          orderDedupeList_length] at hlen
        simp only [List.length_nil] at hlen
        omega
      rcases hdd : dedupeAdj (List.insertionSort obsLe (orderDedupeList cs))
        with _ | ⟨z, _ | ⟨w, t2⟩⟩
      · exact absurd hdd hne
      · rw [collapseObs]
        exact goodClause_isDNF z (helem z (by rw [hdd]; simp))
      · rw [collapseObs_of_two_le .or _ (by simp), isDNF]
        simp only [Bool.and_eq_true, decide_eq_true_eq, List.all_eq_true]
        exact ⟨by simp, fun y hy => helem y (by rw [hdd]; exact hy)⟩

theorem goodClause_absorb_fixed (x : Obs) (h : goodClause x = true) :
    absorbObs x = x := by
  cases x with
  | obs c q => rw [absorbObs]
  | compound op cs =>
    cases op with
    | or => exact Bool.noConfusion h
    | and =>
      rw [goodClause] at h
      simp only [Bool.and_eq_true, decide_eq_true_eq, List.all_eq_true] at h
      rw [absorbObs, absorbList_fixed cs (fun y hy =>
        isLeafObs_absorb y (h.2 y hy))]
      rw [List.filter_eq_self.2 (fun y hy => by
        rw [isLeafObs_absorbedBy .and cs y (h.2 y hy)]; rfl)]
      exact collapseObs_of_two_le .and cs h.1

theorem isDNF_absorb (t : Obs) (h : isDNF t = true) :
    isDNF (absorbObs t) = true := by
  cases t with
  | obs c q => rw [absorbObs]; exact h
  | compound op cs =>
    cases op with
    | and =>
      rw [goodClause_absorb_fixed (ObservationExpression.compound .and cs) h]
      exact h
    | or =>
      rw [isDNF] at h
      simp only [Bool.and_eq_true, decide_eq_true_eq, List.all_eq_true] at h
      rw [absorbObs, absorbList_fixed cs (fun y hy =>
        goodClause_absorb_fixed y (h.2 y hy))]
      have helem : ∀ z ∈ cs.filter (fun c => !(absorbedBy .or cs c)),
          goodClause z = true :=
        fun z hz => h.2 z (List.mem_of_mem_filter hz)
      have hne := absorb_keep_ne_nil .or cs (by
        intro hnil
        have hlen := congrArg List.length hnil
        simp only [List.length_nil] at hlen
        omega)
      rcases hdd : cs.filter (fun c => !(absorbedBy .or cs c))
        with _ | ⟨z, _ | ⟨w, t2⟩⟩
      · exact absurd hdd hne
      · rw [collapseObs]
        exact goodClause_isDNF z (helem z (by rw [hdd]; simp))
      · rw [collapseObs_of_two_le .or _ (by simp), isDNF]
        simp only [Bool.and_eq_true, decide_eq_true_eq, List.all_eq_true]
        exact ⟨by simp, fun y hy => helem y (by rw [hdd]; exact hy)⟩

theorem goodClause_dnf_fixed (x : Obs) (h : goodClause x = true) :
    dnfObs x = x := by
  cases x with
  | obs c q => rw [dnfObs]
  | compound op cs =>
    cases op with
    | or => exact Bool.noConfusion h
    | and =>
      rw [goodClause] at h
      simp only [Bool.and_eq_true, decide_eq_true_eq, List.all_eq_true] at h
      rw [dnfObs, dnfList_fixed cs (fun y hy => isLeafObs_dnf y (h.2 y hy))]
      rw [if_neg (by
        simp only [List.any_eq_true, not_exists, not_and, Bool.not_eq_true]
        intro z hz
        exact isLeafObs_isOrNode z (h.2 z hz))]

theorem isDNF_dnf_fixed (t : Obs) (h : isDNF t = true) : dnfObs t = t := by
  cases t with
  | obs c q => rw [dnfObs]
  | compound op cs =>
    cases op with
    | and => exact goodClause_dnf_fixed _ h
    | or =>
      rw [isDNF] at h
      simp only [Bool.and_eq_true, decide_eq_true_eq, List.all_eq_true] at h
      rw [dnfObs, dnfList_fixed cs (fun y hy =>
          goodClause_dnf_fixed y (h.2 y hy)),
        flatMap_clauses_fixed cs (fun y hy =>
          goodClause_clauses y (h.2 y hy)),
        mkOr, collapseObs_of_two_le .or cs h.1]

theorem dnf_good :
    ∀ t : Obs, flatTree t →
      isDNF (dnfObs t) = true ∧
      (∀ x ∈ clauses (dnfObs t), goodClause x = true) ∧
      1 ≤ (clauses (dnfObs t)).length ∧
      (isOrNode t = true → isOrNode (dnfObs t) = true)
  | .obs c q, _ => by
    rw [dnfObs]
    refine ⟨rfl, ?_, le_refl 1, fun hcon => Bool.noConfusion hcon⟩
    intro x hx
    obtain rfl := List.mem_singleton.1 hx
    rfl
  | .compound .or cs, h => by
    rw [flatTree] at h
    obtain ⟨hlen, hff⟩ := h
    have hch := (flatForest_iff .or cs).1 hff
    have hcl : ∀ y ∈ cs, (∀ x ∈ clauses (dnfObs y), goodClause x = true) ∧
        1 ≤ (clauses (dnfObs y)).length := by
      intro y hy
      have hg := dnf_good y (hch y hy).2
      exact ⟨hg.2.1, hg.2.2.1⟩
    have hLgood : ∀ x ∈ (dnfList cs).flatMap clauses,
        goodClause x = true := by
      intro x hx
      obtain ⟨u, hu, hxu⟩ := List.mem_flatMap.1 hx
      obtain ⟨y, hy, rfl⟩ := dnfList_mem cs u hu
      exact (hcl y hy).1 x hxu
    have hLlen : 2 ≤ ((dnfList cs).flatMap clauses).length := by
      have h1 := flatMap_length_ge clauses (dnfList cs) (by
        intro u hu
        obtain ⟨y, hy, rfl⟩ := dnfList_mem cs u hu
        exact (hcl y hy).2)
      rw [dnfList_length] at h1
      omega
    rw [dnfObs, mkOr, collapseObs_of_two_le .or _ hLlen]
    refine ⟨?_, ?_, ?_, fun _ => rfl⟩
    · rw [isDNF]
      simp only [Bool.and_eq_true, decide_eq_true_eq, List.all_eq_true]
      exact ⟨hLlen, hLgood⟩
    · intro x hx
      exact hLgood x hx
    · show 1 ≤ ((dnfList cs).flatMap clauses).length
      omega
  | .compound .and cs, h => by
    rw [flatTree] at h
    obtain ⟨hlen, hff⟩ := h
    have hch := (flatForest_iff .and cs).1 hff
    rw [dnfObs]
    by_cases hor : (dnfList cs).any isOrNode = true
    · rw [if_pos hor]
      have hclgood : ∀ l ∈ (dnfList cs).map clauses,
          (∀ x ∈ l, goodClause x = true) ∧ l ≠ [] := by
        intro l hl
        obtain ⟨u, hu, rfl⟩ := List.mem_map.1 hl
        obtain ⟨y, hy, rfl⟩ := dnfList_mem cs u hu
        have hg := dnf_good y (hch y hy).2
        refine ⟨hg.2.1, ?_⟩
        intro hnil
        have hpos := hg.2.2.1
        rw [hnil] at hpos
        simp at hpos
      have hcombo_good : ∀ combo ∈ cartesianProduct
          ((dnfList cs).map clauses),
          goodClause (mkAnd (combo.flatMap andParts)) = true := by
        intro combo hcombo
        have hparts_leaf : ∀ z ∈ combo.flatMap andParts,
            isLeafObs z = true := by
          intro z hz
          obtain ⟨u, hu, hzu⟩ := List.mem_flatMap.1 hz
          obtain ⟨l, hl, hul⟩ := cartesianProduct_mem_flat _ combo hcombo u hu
          exact (goodClause_andParts u ((hclgood l hl).1 u hul)).1 z hzu
        have hparts_len : 2 ≤ (combo.flatMap andParts).length := by
          have h1 := flatMap_length_ge andParts combo (by
            intro u hu
            obtain ⟨l, hl, hul⟩ :=
              cartesianProduct_mem_flat _ combo hcombo u hu
            exact (goodClause_andParts u ((hclgood l hl).1 u hul)).2)
          have h2 := cartesianProduct_mem_length _ combo hcombo
          rw [List.length_map, dnfList_length] at h2
          omega
        rw [mkAnd, collapseObs_of_two_le .and _ hparts_len, goodClause]
        simp only [Bool.and_eq_true, decide_eq_true_eq, List.all_eq_true]
        exact ⟨hparts_len, hparts_leaf⟩
      have hM : ∀ x ∈ (cartesianProduct ((dnfList cs).map clauses)).map
          (fun combo => mkAnd (combo.flatMap andParts)),
          goodClause x = true := by
        intro x hx
        obtain ⟨combo, hcombo, rfl⟩ := List.mem_map.1 hx
        exact hcombo_good combo hcombo
      have hMne : (cartesianProduct ((dnfList cs).map clauses)).map
          (fun combo => mkAnd (combo.flatMap andParts)) ≠ [] := by
        intro hnil
        have hcne := cartesianProduct_ne_nil ((dnfList cs).map clauses)
          (fun l hl => (hclgood l hl).2)
        simp only [List.map_eq_nil_iff] at hnil
        exact hcne hnil
      refine ⟨isDNF_mkOr _ hM hMne, ?_, ?_, fun hcon => Bool.noConfusion hcon⟩
      · rw [clauses_mkOr _ hM hMne]
        exact hM
      · rw [clauses_mkOr _ hM hMne]
        exact List.length_pos.2 hMne
    · rw [if_neg hor]
      have hleaf : ∀ u ∈ dnfList cs, isLeafObs u = true := by
        intro u hu
        obtain ⟨y, hy, rfl⟩ := dnfList_mem cs u hu
        cases y with
        | obs c2 q2 => rw [dnfObs]; rfl
        | compound op2 gs =>
          cases op2 with
          | and => exact absurd rfl (hch _ hy).1
          | or =>
            have hg := dnf_good (.compound .or gs) (hch _ hy).2
            exact absurd (List.any_eq_true.2 ⟨dnfObs (.compound .or gs), hu,
              hg.2.2.2 rfl⟩) hor
      have hgc : goodClause (ObservationExpression.compound .and
          (dnfList cs)) = true := by
        rw [goodClause]
        simp only [Bool.and_eq_true, decide_eq_true_eq, List.all_eq_true]
        exact ⟨by rw [dnfList_length]; omega, hleaf⟩
      refine ⟨goodClause_isDNF _ hgc, ?_, le_refl 1,
        fun hcon => Bool.noConfusion hcon⟩
      intro x hx
      obtain rfl := List.mem_singleton.1 hx
      exact hgc
termination_by t => sizeOf t
decreasing_by
  all_goals simp_wf
  all_goals have := List.sizeOf_lt_of_mem hy
  all_goals try simp only [ObservationExpression.compound.sizeOf_spec] at this ⊢
  all_goals omega

theorem simplifyStep_snd_false (u : Obs) (h : (simplifyStep u).2 = false) :
    flattenObs u = u ∧ orderDedupeObs u = u ∧ absorbObs u = u := by
  unfold simplifyStep step at h
  simp only [Bool.or_eq_false_iff, decide_eq_false_iff_not,
    Decidable.not_not] at h
  obtain ⟨⟨h1, h2⟩, h3⟩ := h
  rw [h1] at h2 h3
  rw [h2] at h3
  exact ⟨h1, h2, h3⟩

theorem simplifyStep_fixed (u : Obs) (h1 : flattenObs u = u)
    (h2 : orderDedupeObs u = u) (h3 : absorbObs u = u) :
    simplifyStep u = (u, false) := by
  unfold simplifyStep step
  simp [h1, h2, h3]

/-- C8: the full canonicalization pipeline is idempotent: on any well-formed
pattern AST whose canonicalization succeeds, re-running the pipeline on the
canonical tree it produced returns the structurally identical tree with a
changed flag of false. -/
theorem pattern_canonicalizer_idempotent (bound : Nat) (t c : Obs) (ch : Bool)
    (hwf : wellFormed t = true)
    (h : pattern_canonicalizer_transform bound t = .ok (c, ch)) :
    pattern_canonicalizer_transform bound c = .ok (c, false) := by
  unfold pattern_canonicalizer_transform at h
  cases h1 : settleTransform bound (step canonicalizeComparisonsPass t).1 with
  | error e =>
    simp only [h1] at h
    exact Except.noConfusion h
  | ok r2 =>
    obtain ⟨t2, c2⟩ := r2
    simp only [h1] at h
    cases h2 : settleTransform bound (step dnfObs t2).1 with
    | error e =>
      simp only [h2] at h
      exact Except.noConfusion h
    | ok r4 =>
      obtain ⟨t4, c4⟩ := r4
      simp only [h2] at h
      injection h with h
      injection h with ha hb
      subst ha
      obtain ⟨b, rfl⟩ : ∃ b, bound = b + 1 := by
        cases bound with
        | zero =>
          unfold settleTransform at h1
          rw [settleAux] at h1
          exact Except.noConfusion h1
        | succ b => exact ⟨b, rfl⟩
      unfold settleTransform at h1 h2
      have hfx2 := settleAux_ok_fixed simplifyStep (b + 1) _ false _ h1
      obtain ⟨hf2, ho2, ha2⟩ := simplifyStep_snd_false t2 hfx2
      have hpres_lc : ∀ u, leavesCanonical u →
          leavesCanonical (simplifyStep u).1 := fun u hu =>
        leavesCanonical_absorb _ (leavesCanonical_orderDedupe _
          (leavesCanonical_flatten u hu))
      have hpres_wf : ∀ u, wellFormed u = true →
          wellFormed (simplifyStep u).1 = true := fun u hu =>
        wellFormed_absorb _ (wellFormed_orderDedupe _
          (wellFormed_flatten _ hu))
      have hlc2 : leavesCanonical t2 :=
        settleAux_ok_invariant simplifyStep leavesCanonical hpres_lc (b + 1)
          _ false _ (leavesCanonical_pass t) h1
      have hwf2 : wellFormed t2 = true :=
        settleAux_ok_invariant simplifyStep (fun u => wellFormed u = true)
          hpres_wf (b + 1) _ false _ (wellFormed_pass t hwf) h1
      have hflat2 : flatTree t2 := by
        have hfl := flattenObs_flat t2 hwf2
        rw [hf2] at hfl
        exact hfl
      have hdnf3 : isDNF ((step dnfObs t2).1) = true := (dnf_good t2 hflat2).1
      have hlc3 : leavesCanonical ((step dnfObs t2).1) :=
        leavesCanonical_dnf t2 hlc2
      have hpres_dnf : ∀ u, isDNF u = true →
          isDNF (simplifyStep u).1 = true := by
        intro u hu
        show isDNF (absorbObs (orderDedupeObs (flattenObs u))) = true
        rw [isDNF_flatten_fixed u hu]
        exact isDNF_absorb _ (isDNF_orderDedupe _ hu)
      have hfx4 := settleAux_ok_fixed simplifyStep (b + 1) _ false _ h2
      obtain ⟨hf4, ho4, ha4⟩ := simplifyStep_snd_false t4 hfx4
      have hlc4 : leavesCanonical t4 :=
        settleAux_ok_invariant simplifyStep leavesCanonical hpres_lc (b + 1)
          _ false _ hlc3 h2
      have hdnf4 : isDNF t4 = true :=
        settleAux_ok_invariant simplifyStep (fun u => isDNF u = true)
          hpres_dnf (b + 1) _ false _ hdnf3 h2
      have hpass : canonicalizeComparisonsPass t4 = t4 :=
        pass_fixed_of_leavesCanonical t4 hlc4
      have hstep1 : step canonicalizeComparisonsPass t4 = (t4, false) := by
        unfold step
        rw [hpass]
        simp
      have hsettle : settleAux simplifyStep (b + 1) t4 false =
          .ok (t4, false) :=
        settleAux_fixed_ok simplifyStep b t4 false (by
          rw [simplifyStep_fixed t4 hf4 ho4 ha4])
      have hstep3 : step dnfObs t4 = (t4, false) := by
        unfold step
        rw [isDNF_dnf_fixed t4 hdnf4]
        simp
      unfold pattern_canonicalizer_transform settleTransform
      simp only [hstep1, hsettle, hstep3]
      rfl

/-- C8 witness: the pipeline maps a concrete well-formed redundant pattern
AND(a, OR(a, c)) to the canonical leaf with changed = true, and re-running
it on that canonical result returns it unchanged with changed = false. -/
theorem pattern_canonicalizer_idempotent_witness :
    pattern_canonicalizer_transform 5 leafA = .ok (leafA, false) :=
  pattern_canonicalizer_idempotent 5
    (.compound .and [leafA, .compound .or [leafA, leafC]]) leafA true
    (by decide) (by decide)
